import Mathlib

/-!
Shallow embedding of `src/offline/vds.py` (creation of a synchronized
AGIPD virtual dataset) and proofs about it.

The script has four stages, embedded below in source order:
* timeline discovery (lines 38-62): per-module scan of index files
  computing `ftrain` (first train id) and `ntrains`;
* canonical arrays (lines 63-65): `all_trains`, `all_cells`, `all_flatid`;
* per-file validation and chunked virtual-mapping (lines 87-128);
* per-file metadata writes and final commit (lines 130-140).

Numpy `u8` (uint64) arithmetic is modelled on `Nat` with an explicit
modulus `U64`; the timeline stage works on Python ints, modelled as `Int`.
-/

namespace VDS

/-- Modulus of numpy uint64 (dtype 'u8') arithmetic. -/
def U64 : Nat := 2 ^ 64

/-- Wrapping uint64 subtraction `a - b` for operands already reduced mod `U64`. -/
def usub (a b : Nat) : Nat := (a + (U64 - b % U64)) % U64

/-- Fill value of the payload virtual dataset, `np.iinfo(np.uint16).max` (line 139). -/
def uint16Max : Nat := 2 ^ 16 - 1

/-! ## Timeline discovery (lines 38-62)

Python ints are exact, so this stage is over `Int`; `sys.maxsize` is
`2^63 - 1` and `ntrains` starts at `-1`. -/

/-- The constant `MAX_TRAINS_IN_FILE` (line 23). -/
def MAX_TRAINS_IN_FILE : Int := 260

/-- Python `sys.maxsize` on a 64-bit platform (lines 39, 41). -/
def MAXSIZE : Int := 2 ^ 63 - 1

/-- `tid.max()` of a (nonempty) index array. -/
def maxL (xs : List Int) : Int := xs.foldl max (xs.headD 0)

/-- `tid.min()` of a (nonempty) index array. -/
def minL (xs : List Int) : Int := xs.foldl min (xs.headD 0)

/-- `tid[-1]`, the last sample of a (nonempty) index array. -/
def lastL (xs : List Int) : Int := (xs.getLast?).getD 0

/-- One iteration of the per-file loop (lines 44-58).  State is
`(tmin, tmax, ftrain)`; `isLast` is the test `fname == flist[-1]` (line 51). -/
def tlFile (isLast : Bool) (s : Int × Int × Int) (tid : List Int) : Int × Int × Int :=
  let tmin := s.1
  let tmax := s.2.1
  let ftrain := s.2.2
  if maxL tid - minL tid > MAX_TRAINS_IN_FILE then
    -- corrupted-span branch (lines 47-53)
    let tmin1 := if minL tid > 0 then min tmin (minL tid) else tmin
    let tmax1 := if isLast then max tmax (lastL tid) else tmax
    (tmin1, tmax1, ftrain)
  else
    -- normal branch (lines 54-56); line 56 uses the updated tmin
    let tmin1 := min tmin (minL tid)
    let tmax1 := max tmax (maxL tid)
    (tmin1, tmax1, min ftrain tmin1)

/-- One iteration of the per-module loop (lines 40-59).  State is
`(ntrains, ftrain)`; `tmin`/`tmax` are re-initialised per module
(lines 41-42) and the module contributes `tmax - tmin` (line 59). -/
def tlModule (s : Int × Int) (files : List (List Int)) : Int × Int :=
  let r := files.enum.foldl
    (fun st p => tlFile (decide (p.1 + 1 = files.length)) st p.2)
    (MAXSIZE, 0, s.2)
  (max s.1 (r.2.1 - r.1), r.2.2)

/-- The whole timeline scan (lines 38-61): returns `(ntrains, ftrain)` after
the final `ntrains = int(ntrains) + 4` (line 60). -/
def vdsTimeline (modules : List (List (List Int))) : Int × Int :=
  let r := modules.foldl tlModule (-1, MAXSIZE)
  (r.1 + 4, r.2)

/-! ## Canonical timeline arrays (lines 63-65) -/

/-- `np.repeat(np.arange(ftrain, ftrain+ntrains, dtype='u8'), npulses)` (line 63). -/
def allTrains (ftrain ntrains npulses : Nat) : List Nat :=
  ((List.range ntrains).map (fun t => (ftrain + t) % U64)).flatMap
    (fun v => List.replicate npulses v)

/-- `np.tile(np.arange(npulses, dtype='u8'), ntrains)` (line 64). -/
def allCells (ntrains npulses : Nat) : List Nat :=
  (List.range ntrains).flatMap (fun _ => List.range npulses)

/-- The elementwise uint64 position formula `(t - ftrain)*npulses + c`
(lines 65 and 96). -/
def flatCalc (npulses ftrain t c : Nat) : Nat :=
  (usub t ftrain * npulses + c) % U64

/-- `all_flatid = (all_trains - ftrain)*npulses + all_cells` (line 65). -/
def allFlatid (ftrain ntrains npulses : Nat) : List Nat :=
  List.zipWith (fun t c => flatCalc npulses ftrain t c)
    (allTrains ftrain ntrains npulses) (allCells ntrains npulses)

/-- Per-row `flatid = (tid - ftrain)*npulses + cid` (line 96). -/
def flatidRow (npulses ftrain : Nat) (tid cid : List Nat) : List Nat :=
  List.zipWith (fun t c => flatCalc npulses ftrain t c) tid cid

/-! ## Record validation (lines 101-105) -/

/-- `sel = (tid>0) & (tid<ltrain)` (line 101).  Note: no lower bound
`ftrain <= tid` is applied. -/
def rangeSel (ltrain : Nat) (tid : List Nat) : List Bool :=
  tid.map (fun t => decide (0 < t) && decide (t < ltrain))

/-- Number of occurrences of value `v` in the full index (`np.unique` counts,
line 102). -/
def countVal (tid : List Nat) (v : Nat) : Nat := tid.count v

/-- Number of occurrences of `v` strictly before row `j` (the occurrence rank
used by the slice `np.where(tid==tid[i])[0][npulses:]`, line 105). -/
def countBefore (tid : List Nat) (j v : Nat) : Nat := (tid.take j).count v

/-- `sel[np.where(tid == v)[0][npulses:]] = False` (line 105): reject every
occurrence of `v` whose occurrence rank is at least `npulses`. -/
def setFalseBeyond (npulses : Nat) (tid : List Nat) (v : Nat) (s : List Bool) : List Bool :=
  (List.range s.length).map (fun j =>
    if tid.getD j 0 = v ∧ npulses ≤ countBefore tid j v then false else s.getD j false)

/-- The values iterated over by `for i in uniq[nuniq>npulses]` (lines 102-103):
distinct values of `tid` occurring more than `npulses` times. -/
def overBudget (npulses : Nat) (tid : List Nat) : List Nat :=
  tid.dedup.filter (fun v => decide (npulses < countVal tid v))

/-- The duplicate-train truncation loop (lines 103-105). -/
def dedupSel (npulses : Nat) (tid : List Nat) (s : List Bool) : List Bool :=
  (overBudget npulses tid).foldl (fun s v => setFalseBeyond npulses tid v s) s

/-- The final `keep` mask of one file after lines 101-105. -/
def finalSel (npulses ltrain : Nat) (tid : List Nat) : List Bool :=
  dedupSel npulses tid (rangeSel ltrain tid)

/-! ## Selection helpers (numpy boolean-mask semantics) -/

/-- `sel.sum()` for a boolean mask. -/
def selCount (s : List Bool) : Nat := s.count true

/-- Boolean-mask indexing `xs[s]`: elements at `True` positions, in row order. -/
def maskList {α : Type} : List α → List Bool → List α
  | [], _ => []
  | _, [] => []
  | x :: xs, b :: bs => if b then x :: maskList xs bs else maskList xs bs

/-- Row indices of `True` positions starting at index `i` (helper for
`np.where(mask)[0]`). -/
def selRowsFrom : List Bool → Nat → List Nat
  | [], _ => []
  | b :: bs, i => if b then i :: selRowsFrom bs (i + 1) else selRowsFrom bs (i + 1)

/-- `np.where(mask)[0]`: ascending indices of `True` positions. -/
def selRows (s : List Bool) : List Nat := selRowsFrom s 0

/-! ## Chunk mapping (lines 112-128) -/

/-- `chunk_sel = np.zeros_like(sel); chunk_sel[st:en] = sel[st:en]`
(lines 116-117). -/
def chunkSel (s : List Bool) (st en : Nat) : List Bool :=
  (List.range s.length).map (fun j => decide (st ≤ j) && decide (j < en) && s.getD j false)

/-- `np.where(np.in1d(all_flatid, vals))[0]` (line 118): ascending canonical
positions whose `all_flatid` value occurs among `vals`. -/
def chunkInd (allFlat : List Nat) (vals : List Nat) : List Nat :=
  (List.range allFlat.length).filter (fun f => vals.contains (allFlat.getD f 0))

/-- `int(np.ceil(dset.shape[0] / chunk_size))` (line 113). -/
def numChunks (n csize : Nat) : Nat := (n + csize - 1) / csize

/-- `chunk_size = 32` (line 112). -/
def chunk_size : Nat := 32

/-- The chunk loop (lines 114-128).  Accumulates one entry per non-empty
chunk pairing the chunk's selected physical rows (ascending, the order of
`VirtualSource(dset)[chunk_sel]`) with `chunk_ind` (ascending destinations);
returns `some c` when chunk `c` fails the count check of line 119 (the
`return` of line 121), keeping the entries accumulated so far. -/
def chunksGo (csize n : Nat) (sel : List Bool) (flatid allFlat : List Nat) :
    List Nat → List (List (Nat × Nat)) → List (List (Nat × Nat)) × Option Nat
  | [], acc => (acc, none)
  | c :: rest, acc =>
    let st := c * csize
    let en := min n ((c + 1) * csize)
    let csel := chunkSel sel st en
    let cind := chunkInd allFlat (maskList flatid csel)
    if selCount csel ≠ cind.length then (acc, some c)
    else if selCount csel = 0 then chunksGo csize n sel flatid allFlat rest acc
    else chunksGo csize n sel flatid allFlat rest (acc ++ [(selRows csel).zip cind])

/-- All chunks of one file (lines 113-128). -/
def processChunks (csize n : Nat) (sel : List Bool) (flatid allFlat : List Nat) :
    List (List (Nat × Nat)) × Option Nat :=
  chunksGo csize n sel flatid allFlat (List.range (numChunks n csize)) []

/-! ## Per-file metadata writes (lines 108-109, 130-135) -/

/-- `indices = np.where(np.in1d(all_trains, tid))[0]` with `tid` the surviving
train ids (lines 108-109). -/
def metaIndices (allT : List Nat) (tidSurv : List Nat) : List Nat :=
  (List.range allT.length).filter (fun f => tidSurv.contains (allT.getD f 0))

/-- Boolean-mask assignment `arr[sel_indices] = vals` (lines 132-135): the
ascending masked positions receive `vals` in order; numpy raises a shape
mismatch (`none`) when the counts differ. -/
def maskedWrite (arr : Nat → Nat) (idxs vals : List Nat) : Option (Nat → Nat) :=
  if idxs.length = vals.length then
    some (fun f => ((idxs.zip vals).lookup f).getD (arr f))
  else none

/-! ## The run (lines 77-140) -/

/-- One module file's index and identifier arrays (`trainId`, `cellId`,
`pulseId` datasets, all row-aligned with the payload). -/
structure FileData where
  tid : List Nat
  cid : List Nat
  pid : List Nat
deriving DecidableEq

/-- Observable state of the output artifact.  `layoutWrites` records, in
assignment order, each `(module, source row, canonical destination)` declared
into the virtual layout (line 128); `trainOut`, `cidOut`, `pidOut` are the
three metadata datasets (lines 78, 81-86); the flags track the output file's
lifecycle (created at line 77, committed at lines 139-140, never removed). -/
structure RunState where
  layoutWrites : List (Nat × Nat × Nat)
  trainOut : Nat → Nat
  cidOut : Nat → Nat
  pidOut : Nat → Nat
  created : Bool
  committed : Bool
  removed : Bool

/-- Why a run stopped early: the mapping-integrity `return` of line 121, or
the numpy shape fault of the masked assignments at lines 134-135. -/
inductive Abort where
  | mismatch (m chunk : Nat)
  | shapeFault (m : Nat)
deriving DecidableEq

/-- The metadata writes of one file (lines 108-109, 130-135): `sel_indices`
covers every canonical slot of a surviving train; the masked assignments
write the surviving `cellId`/`pulseId` values there, or raise (shape fault)
when the counts disagree. -/
def metaStep (npulses ftrain ntrains m : Nat) (fd : FileData) (sel : List Bool)
    (st1 : RunState) : RunState × Option Abort :=
  let idxs := metaIndices (allTrains ftrain ntrains npulses) (maskList fd.tid sel)
  match maskedWrite st1.cidOut idxs (maskList fd.cid sel),
        maskedWrite st1.pidOut idxs (maskList fd.pid sel) with
  | some cf, some pf => ({ st1 with cidOut := cf, pidOut := pf }, none)
  | _, _ => (st1, some (Abort.shapeFault m))

/-- Processing of one file of module `m` (lines 89-135). -/
def processFile (npulses ftrain ntrains m : Nat) (fd : FileData) (st : RunState) :
    RunState × Option Abort :=
  let sel := finalSel npulses (ftrain + ntrains) fd.tid
  if selCount sel = 0 then (st, none)
  else
    let r := processChunks chunk_size fd.tid.length sel
      (flatidRow npulses ftrain fd.tid fd.cid) (allFlatid ftrain ntrains npulses)
    let st1 := { st with
      layoutWrites := st.layoutWrites ++ r.1.flatMap (fun ch => ch.map (fun p => (m, p.1, p.2))) }
    match r.2 with
    | some c => (st1, some (Abort.mismatch m c))
    | none => metaStep npulses ftrain ntrains m fd sel st1

/-- All files of one module, stopping at the first abort. -/
def filesGo (npulses ftrain ntrains m : Nat) :
    List FileData → RunState → RunState × Option Abort
  | [], st => (st, none)
  | fd :: rest, st =>
    match processFile npulses ftrain ntrains m fd st with
    | (st1, some a) => (st1, some a)
    | (st1, none) => filesGo npulses ftrain ntrains m rest st1

/-- The module loop (line 87), module index threaded through. -/
def modulesGo (npulses ftrain ntrains : Nat) :
    Nat → List (List FileData) → RunState → RunState × Option Abort
  | _, [], st => (st, none)
  | m, fs :: rest, st =>
    match filesGo npulses ftrain ntrains m fs st with
    | (st1, some a) => (st1, some a)
    | (st1, none) => modulesGo npulses ftrain ntrains (m + 1) rest st1

/-- State right after opening the output file (lines 77-86): the file exists,
`trainId` holds the full canonical train sequence, `cellId` and `pulseId` are
filled with the 65535 sentinel, nothing is committed. -/
def initState (ftrain ntrains npulses : Nat) : RunState :=
  { layoutWrites := []
    trainOut := fun f => (allTrains ftrain ntrains npulses).getD f 0
    cidOut := fun _ => uint16Max
    pidOut := fun _ => uint16Max
    created := true
    committed := false
    removed := false }

/-- The whole composition run (lines 77-140): on success the virtual dataset
is committed and the file closed; on abort the function returns with the
state as it stands. -/
def runVDS (npulses ftrain ntrains : Nat) (modules : List (List FileData)) :
    RunState × Option Abort :=
  match modulesGo npulses ftrain ntrains 0 modules (initState ftrain ntrains npulses) with
  | (st, none) => ({ st with committed := true }, none)
  | (st, some a) => (st, some a)

/-- The virtual-layout entry that supplies canonical position `f` of module
`m`, if any: h5py fancy assignment semantics, last write wins. -/
def payloadSource (st : RunState) (m f : Nat) : Option (Nat × Nat × Nat) :=
  (st.layoutWrites.filter (fun e => decide (e.1 = m) && decide (e.2.2 = f))).getLast?

/-- Reading the committed payload at `(m, f)`: either the declared fill value
(line 139) or the payload of the mapped source row. -/
def payloadRead (st : RunState) (m f : Nat) : Nat ⊕ (Nat × Nat × Nat) :=
  match payloadSource st m f with
  | none => Sum.inl uint16Max
  | some e => Sum.inr e

/-! ## Basic lemmas on the list helpers -/

theorem getD_range_map {α : Type} (f : Nat → α) (n j : Nat) (d : α) (hj : j < n) :
    ((List.range n).map f).getD j d = f j := by
  rw [List.getD_eq_getElem?_getD, List.getElem?_map, List.getElem?_range hj]
  rfl

theorem getD_map (f : Nat → Nat) (l : List Nat) (j : Nat) (hj : j < l.length) :
    (l.map f).getD j 0 = f (l.getD j 0) := by
  rw [List.getD_eq_getElem?_getD, List.getElem?_map, List.getD_eq_getElem?_getD,
    List.getElem?_eq_getElem hj]
  rfl

theorem getD_zipWith (f : Nat → Nat → Nat) (l1 l2 : List Nat) (j : Nat)
    (h1 : j < l1.length) (h2 : j < l2.length) :
    (List.zipWith f l1 l2).getD j 0 = f (l1.getD j 0) (l2.getD j 0) := by
  rw [List.getD_eq_getElem?_getD, List.getElem?_zipWith,
    List.getElem?_eq_getElem h1, List.getElem?_eq_getElem h2,
    List.getD_eq_getElem?_getD, List.getD_eq_getElem?_getD,
    List.getElem?_eq_getElem h1, List.getElem?_eq_getElem h2]
  rfl

theorem getD_range (n j : Nat) (hj : j < n) : (List.range n).getD j 0 = j := by
  rw [List.getD_eq_getElem?_getD, List.getElem?_range hj]
  rfl

/-! ## Characterization of the validator mask -/

theorem length_setFalseBeyond (np : Nat) (tid : List Nat) (v : Nat) (s : List Bool) :
    (setFalseBeyond np tid v s).length = s.length := by
  simp [setFalseBeyond]

theorem getD_setFalseBeyond (np : Nat) (tid : List Nat) (v : Nat) (s : List Bool) (j : Nat) :
    (setFalseBeyond np tid v s).getD j false =
      if tid.getD j 0 = v ∧ np ≤ countBefore tid j v then false else s.getD j false := by
  by_cases hj : j < s.length
  · rw [setFalseBeyond, getD_range_map _ _ _ _ hj]
  · have h1 : (setFalseBeyond np tid v s).getD j false = false :=
      List.getD_eq_default _ _ (by rw [length_setFalseBeyond]; omega)
    have h2 : s.getD j false = false := List.getD_eq_default _ _ (by omega)
    rw [h1, h2]
    split <;> rfl

theorem foldl_setFalseBeyond_getD (np : Nat) (tid : List Nat) (L : List Nat)
    (s : List Bool) (j : Nat) :
    (L.foldl (fun s v => setFalseBeyond np tid v s) s).getD j false =
      (s.getD j false &&
        !(decide (tid.getD j 0 ∈ L) && decide (np ≤ countBefore tid j (tid.getD j 0)))) := by
  induction L generalizing s with
  | nil => simp
  | cons v L ih =>
    rw [List.foldl_cons, ih, getD_setFalseBeyond]
    by_cases h1 : tid.getD j 0 = v
    · subst h1
      by_cases h2 : np ≤ countBefore tid j (tid.getD j 0)
      · rw [if_pos ⟨rfl, h2⟩]
        have hd : decide (np ≤ countBefore tid j (tid.getD j 0)) = true := decide_eq_true h2
        have hm : decide (tid.getD j 0 ∈ tid.getD j 0 :: L) = true :=
          decide_eq_true (List.mem_cons_self _ _)
        rw [hd, hm]
        simp
      · rw [if_neg (fun hc => h2 hc.2)]
        have hd : decide (np ≤ countBefore tid j (tid.getD j 0)) = false :=
          decide_eq_false h2
        rw [hd]
        simp
    · rw [if_neg (fun hc => h1 hc.1)]
      have hm : decide (tid.getD j 0 ∈ v :: L) = decide (tid.getD j 0 ∈ L) :=
        decide_eq_decide.mpr (by
          constructor
          · intro h; rcases List.mem_cons.mp h with h | h
            · exact absurd h h1
            · exact h
          · exact fun h => List.mem_cons_of_mem _ h)
      rw [hm]

theorem dedupSel_getD (np : Nat) (tid : List Nat) (s : List Bool) (j : Nat)
    (hj : j < tid.length) :
    (dedupSel np tid s).getD j false =
      (s.getD j false &&
        !(decide (np < countVal tid (tid.getD j 0)) &&
          decide (np ≤ countBefore tid j (tid.getD j 0)))) := by
  rw [dedupSel, foldl_setFalseBeyond_getD]
  have hmem : tid.getD j 0 ∈ tid := by
    rw [List.getD_eq_getElem?_getD, List.getElem?_eq_getElem hj]
    exact List.getElem_mem hj
  have hiff : (tid.getD j 0 ∈ overBudget np tid) ↔ np < countVal tid (tid.getD j 0) := by
    rw [overBudget, List.mem_filter, List.mem_dedup]
    constructor
    · intro h
      exact of_decide_eq_true h.2
    · intro h
      exact ⟨hmem, decide_eq_true h⟩
  rw [decide_eq_decide.mpr hiff]

theorem length_rangeSel (ltrain : Nat) (tid : List Nat) :
    (rangeSel ltrain tid).length = tid.length := by
  simp [rangeSel]

theorem finalSel_getD (np ltrain : Nat) (tid : List Nat) (j : Nat) (hj : j < tid.length) :
    (finalSel np ltrain tid).getD j false =
      ((decide (0 < tid.getD j 0) && decide (tid.getD j 0 < ltrain)) &&
        !(decide (np < countVal tid (tid.getD j 0)) &&
          decide (np ≤ countBefore tid j (tid.getD j 0)))) := by
  rw [finalSel, dedupSel_getD _ _ _ _ hj]
  congr 1
  rw [rangeSel, List.getD_eq_getElem?_getD, List.getElem?_map,
    List.getElem?_eq_getElem hj, List.getD_eq_getElem?_getD, List.getElem?_eq_getElem hj]
  rfl

theorem length_dedupSel (np : Nat) (tid : List Nat) (s : List Bool) :
    (dedupSel np tid s).length = s.length := by
  rw [dedupSel]
  induction overBudget np tid generalizing s with
  | nil => rfl
  | cons v L ih => rw [List.foldl_cons, ih, length_setFalseBeyond]

theorem length_finalSel (np ltrain : Nat) (tid : List Nat) :
    (finalSel np ltrain tid).length = tid.length := by
  rw [finalSel, length_dedupSel, length_rangeSel]

/-! ## Representation of the canonical arrays -/

theorem map_range_const {α : Type} (np : Nat) (f : Nat → α) (a : α)
    (h : ∀ r, r < np → f r = a) : (List.range np).map f = List.replicate np a := by
  have hlen : ((List.range np).map f).length = np := by simp
  conv_rhs => rw [← hlen]
  apply List.eq_replicate_of_mem
  intro b hb
  rw [List.mem_map] at hb
  obtain ⟨r, hr, rfl⟩ := hb
  exact h r (List.mem_range.mp hr)

theorem block_div (n np r : Nat) (hr : r < np) : (n * np + r) / np = n := by
  have hp : 0 < np := by omega
  have h1 : n * np + r = np * n + r := by rw [Nat.mul_comm]
  rw [h1, Nat.mul_add_div hp, Nat.div_eq_of_lt hr]
  omega

theorem block_mod (n np r : Nat) (hr : r < np) : (n * np + r) % np = r := by
  have h1 : n * np + r = np * n + r := by rw [Nat.mul_comm]
  rw [h1, Nat.mul_add_mod, Nat.mod_eq_of_lt hr]

theorem allTrains_eq (ftr nt np : Nat) :
    allTrains ftr nt np =
      (List.range (nt * np)).map (fun f => (ftr + f / np) % U64) := by
  induction nt with
  | zero => simp [allTrains]
  | succ n ih =>
    rw [allTrains, List.range_succ, List.map_append, List.flatMap_append,
      ← allTrains, ih, Nat.succ_mul, List.range_add, List.map_append]
    congr 1
    rw [List.map_map, List.map_cons, List.map_nil, List.flatMap_cons,
      List.flatMap_nil, List.append_nil]
    symm
    apply map_range_const
    intro r hr
    show (ftr + (n * np + r) / np) % U64 = (ftr + n) % U64
    rw [block_div n np r hr]

theorem allCells_eq (nt np : Nat) :
    allCells nt np = (List.range (nt * np)).map (fun f => f % np) := by
  induction nt with
  | zero => simp [allCells]
  | succ n ih =>
    rw [allCells, List.range_succ, List.flatMap_append, ← allCells, ih,
      Nat.succ_mul, List.range_add, List.map_append]
    congr 1
    rw [List.map_map, List.flatMap_cons, List.flatMap_nil, List.append_nil]
    have h : ∀ r ∈ List.range np,
        ((fun f => f % np) ∘ fun x => n * np + x) r = r := by
      intro r hr
      exact block_mod n np r (List.mem_range.mp hr)
    symm
    rw [List.map_congr_left h]
    exact List.map_id _

theorem length_allTrains (ftr nt np : Nat) : (allTrains ftr nt np).length = nt * np := by
  rw [allTrains_eq]
  simp

theorem usub_of_le (a b : Nat) (hba : b ≤ a) (ha : a < U64) :
    usub a b = a - b := by
  rw [usub, Nat.mod_eq_of_lt (by omega : b < U64)]
  have h1 : a + (U64 - b) = (a - b) + U64 := by omega
  rw [h1, Nat.add_mod_right, Nat.mod_eq_of_lt (by omega)]

theorem flatCalc_eq (np ftr t c : Nat) (ht : ftr ≤ t) (htU : t < U64)
    (hv : (t - ftr) * np + c < U64) :
    flatCalc np ftr t c = (t - ftr) * np + c := by
  rw [flatCalc, usub_of_le t ftr ht htU, Nat.mod_eq_of_lt hv]

theorem pos_of_lt_mul (f nt np : Nat) (hf : f < nt * np) : 0 < np := by
  rcases Nat.eq_zero_or_pos np with h | h
  · rw [h, Nat.mul_zero] at hf
    omega
  · exact h

theorem div_lt_of_lt_mul2 (f nt np : Nat) (hf : f < nt * np) : f / np < nt := by
  have hf2 : f < np * nt := by rw [Nat.mul_comm np nt]; exact hf
  exact Nat.div_lt_of_lt_mul hf2

theorem allTrains_getD (ftr nt np f : Nat) (hf : f < nt * np) (h1 : ftr + nt ≤ U64) :
    (allTrains ftr nt np).getD f 0 = ftr + f / np := by
  have hq : f / np < nt := div_lt_of_lt_mul2 f nt np hf
  have h5 : ftr + f / np < ftr + nt := Nat.add_lt_add_left hq ftr
  rw [allTrains_eq, getD_range_map _ _ _ _ hf,
    Nat.mod_eq_of_lt (Nat.lt_of_lt_of_le h5 h1)]

theorem allCells_getD (nt np f : Nat) (hf : f < nt * np) :
    (allCells nt np).getD f 0 = f % np := by
  rw [allCells_eq, getD_range_map _ _ _ _ hf]

theorem allFlatid_eq_range (ftr nt np : Nat) (h1 : ftr + nt ≤ U64) (h2 : nt * np ≤ U64) :
    allFlatid ftr nt np = List.range (nt * np) := by
  rw [allFlatid, allTrains_eq, allCells_eq, List.zipWith_map, List.zipWith_same]
  have hpt : ∀ f ∈ List.range (nt * np),
      (fun f => flatCalc np ftr ((ftr + f / np) % U64) (f % np)) f = id f := by
    intro f hf
    have hflt := List.mem_range.mp hf
    have hq : f / np < nt := div_lt_of_lt_mul2 f nt np hflt
    have h5 : ftr + f / np < ftr + nt := Nat.add_lt_add_left hq ftr
    have h6 : ftr + f / np < U64 := Nat.lt_of_lt_of_le h5 h1
    show flatCalc np ftr ((ftr + f / np) % U64) (f % np) = f
    rw [Nat.mod_eq_of_lt h6]
    rw [flatCalc, usub_of_le _ _ (Nat.le_add_right ftr (f / np)) h6]
    have hqq : ftr + f / np - ftr = f / np := Nat.add_sub_cancel_left ftr (f / np)
    have h3 : f / np * np + f % np = f := by
      rw [Nat.mul_comm]
      exact Nat.div_add_mod f np
    rw [hqq, h3, Nat.mod_eq_of_lt (Nat.lt_of_lt_of_le hflt h2)]
  rw [List.map_congr_left hpt]
  exact List.map_id _

/-! ## Lemmas on masks and selections -/

theorem maskList_length {α : Type} (xs : List α) (s : List Bool)
    (h : xs.length = s.length) : (maskList xs s).length = selCount s := by
  induction xs generalizing s with
  | nil =>
    cases s with
    | nil => rfl
    | cons b bs => simp at h
  | cons x xs ih =>
    cases s with
    | nil => simp at h
    | cons b bs =>
      have h2 : xs.length = bs.length := by simpa using h
      cases b <;> simp [maskList, selCount, List.count_cons, ih bs h2]

theorem maskList_nil_of_selCount_zero {α : Type} (xs : List α) (s : List Bool)
    (h : selCount s = 0) : maskList xs s = [] := by
  induction xs generalizing s with
  | nil =>
    cases s with
    | nil => rfl
    | cons b bs => rfl
  | cons x xs ih =>
    cases s with
    | nil => rfl
    | cons b bs =>
      cases b with
      | true => simp [selCount, List.count_cons] at h
      | false =>
        have h2 : selCount bs = 0 := by simpa [selCount, List.count_cons] using h
        simpa [maskList] using ih bs h2

theorem mem_maskList (xs : List Nat) (s : List Bool) (j : Nat)
    (hjx : j < xs.length) (hjs : j < s.length) (ht : s.getD j false = true) :
    xs.getD j 0 ∈ maskList xs s := by
  induction xs generalizing s j with
  | nil => simp at hjx
  | cons x xs ih =>
    cases s with
    | nil => simp at hjs
    | cons b bs =>
      cases j with
      | zero =>
        have hb : b = true := by simpa using ht
        subst hb
        simp [maskList]
      | succ j =>
        have hjx2 : j < xs.length := by simpa using hjx
        have hjs2 : j < bs.length := by simpa using hjs
        have ht2 : bs.getD j false = true := by simpa using ht
        have hmem := ih bs j hjx2 hjs2 ht2
        rw [List.getD_cons_succ]
        cases b with
        | true =>
          have hml : maskList (x :: xs) (true :: bs) = x :: maskList xs bs := by
            simp [maskList]
          rw [hml]
          exact List.mem_cons_of_mem x hmem
        | false =>
          have hml : maskList (x :: xs) (false :: bs) = maskList xs bs := by
            simp [maskList]
          rw [hml]
          exact hmem

theorem maskList_not_nodup (xs : List Nat) (s : List Bool) (i j : Nat) (hij : i < j)
    (hjx : j < xs.length) (hjs : j < s.length)
    (hsi : s.getD i false = true) (hsj : s.getD j false = true)
    (hx : xs.getD i 0 = xs.getD j 0) :
    ¬ (maskList xs s).Nodup := by
  induction xs generalizing s i j with
  | nil => simp at hjx
  | cons x xs ih =>
    cases s with
    | nil => simp at hjs
    | cons b bs =>
      obtain ⟨j0, rfl⟩ : ∃ j0, j = j0 + 1 := ⟨j - 1, by omega⟩
      have hjx2 : j0 < xs.length := by simpa using hjx
      have hjs2 : j0 < bs.length := by simpa using hjs
      have hsj2 : bs.getD j0 false = true := by simpa using hsj
      cases i with
      | zero =>
        have hb : b = true := by simpa using hsi
        subst hb
        have hx2 : x = xs.getD j0 0 := by
          simpa [List.getD_cons_zero, List.getD_cons_succ] using hx
        have hmem := mem_maskList xs bs j0 hjx2 hjs2 hsj2
        have hml : maskList (x :: xs) (true :: bs) = x :: maskList xs bs := by
          simp [maskList]
        rw [hml]
        intro hnd
        exact (List.nodup_cons.mp hnd).1 (by rw [hx2]; exact hmem)
      | succ i0 =>
        have hij2 : i0 < j0 := by omega
        have hsi2 : bs.getD i0 false = true := by simpa using hsi
        have hx2 : xs.getD i0 0 = xs.getD j0 0 := by
          simpa [List.getD_cons_succ] using hx
        have htail := ih bs i0 j0 hij2 hjx2 hjs2 hsi2 hsj2 hx2
        cases b with
        | true =>
          have hml : maskList (x :: xs) (true :: bs) = x :: maskList xs bs := by
            simp [maskList]
          rw [hml]
          intro hnd
          exact htail (List.nodup_cons.mp hnd).2
        | false =>
          have hml : maskList (x :: xs) (false :: bs) = maskList xs bs := by
            simp [maskList]
          rw [hml]
          exact htail

theorem dedup_length_lt (l : List Nat) (h : ¬ l.Nodup) : l.dedup.length < l.length := by
  have hsub := List.dedup_sublist l
  have hle := hsub.length_le
  rcases Nat.lt_or_ge l.dedup.length l.length with h1 | h1
  · exact h1
  · exact absurd (List.dedup_eq_self.mp (hsub.eq_of_length (by omega))) h

theorem selCount_ne_zero (s : List Bool) (i : Nat) (hi : i < s.length)
    (h : s.getD i false = true) : selCount s ≠ 0 := by
  have h2 : s[i] = true := by
    rw [List.getD_eq_getElem?_getD, List.getElem?_eq_getElem hi] at h
    exact h
  have hmem : true ∈ s := h2 ▸ List.getElem_mem hi
  have := List.count_pos_iff.mpr hmem
  simp only [selCount]
  omega

theorem selRowsFrom_length (s : List Bool) (i : Nat) :
    (selRowsFrom s i).length = selCount s := by
  induction s generalizing i with
  | nil => rfl
  | cons b bs ih =>
    cases b <;> simp [selRowsFrom, selCount, List.count_cons, ih]

theorem selRowsFrom_shift (s : List Bool) (i : Nat) :
    selRowsFrom s (i + 1) = (selRowsFrom s i).map (fun x => x + 1) := by
  induction s generalizing i with
  | nil => rfl
  | cons b bs ih =>
    cases b <;> simp [selRowsFrom, ih]

theorem maskList_eq_map (xs : List Nat) (s : List Bool) (h : xs.length = s.length) :
    maskList xs s = (selRows s).map (fun r => xs.getD r 0) := by
  rw [selRows]
  induction xs generalizing s with
  | nil =>
    cases s with
    | nil => rfl
    | cons b bs => simp at h
  | cons x xs ih =>
    cases s with
    | nil => simp at h
    | cons b bs =>
      have h2 : xs.length = bs.length := by simpa using h
      have hshift := selRowsFrom_shift bs 0
      cases b with
      | true =>
        have hml : maskList (x :: xs) (true :: bs) = x :: maskList xs bs := by
          simp [maskList]
        have hsr : selRowsFrom (true :: bs) 0 = 0 :: selRowsFrom bs 1 := by
          simp [selRowsFrom]
        rw [hml, hsr, List.map_cons, hshift, List.map_map, ih bs h2]
        congr 1
      | false =>
        have hml : maskList (x :: xs) (false :: bs) = maskList xs bs := by
          simp [maskList]
        have hsr : selRowsFrom (false :: bs) 0 = selRowsFrom bs 1 := by
          simp [selRowsFrom]
        rw [hml, hsr, hshift, List.map_map, ih bs h2]
        apply List.map_congr_left
        intro r hr
        exact (List.getD_cons_succ).symm

theorem zip_map_self {α β : Type} (L : List α) (g : α → β) (p : α × β)
    (hp : p ∈ L.zip (L.map g)) : p.2 = g p.1 := by
  induction L with
  | nil => cases hp
  | cons a L ih =>
    rw [List.map_cons, List.zip_cons_cons] at hp
    rcases List.mem_cons.mp hp with h | h
    · rw [h]
    · exact ih h

/-! ## Lemmas on the chunk mapping -/

theorem length_chunkSel (s : List Bool) (st en : Nat) :
    (chunkSel s st en).length = s.length := by
  simp [chunkSel]

theorem chunkSel_getD (s : List Bool) (st en j : Nat) (hj : j < s.length) :
    (chunkSel s st en).getD j false =
      (decide (st ≤ j) && decide (j < en) && s.getD j false) := by
  rw [chunkSel, getD_range_map _ _ _ _ hj]

theorem chunkInd_nodup (allFlat vals : List Nat) : (chunkInd allFlat vals).Nodup :=
  (List.Nodup.sublist (List.filter_sublist _) (List.nodup_range _))

theorem chunkInd_sorted (allFlat vals : List Nat) :
    List.Pairwise (· < ·) (chunkInd allFlat vals) :=
  List.Pairwise.sublist (List.filter_sublist _) (List.pairwise_lt_range _)

theorem chunkInd_nil (allFlat : List Nat) : chunkInd allFlat [] = [] := by
  simp [chunkInd]

theorem chunkInd_range_eq (N : Nat) (vals : List Nat) :
    chunkInd (List.range N) vals = (List.range N).filter (fun f => vals.contains f) := by
  rw [chunkInd, List.length_range]
  apply List.filter_congr
  intro a ha
  rw [getD_range N a (List.mem_range.mp ha)]

theorem chunkInd_subset (N : Nat) (vals : List Nat) (a : Nat)
    (ha : a ∈ chunkInd (List.range N) vals) : a ∈ vals := by
  rw [chunkInd_range_eq] at ha
  have h2 := List.mem_filter.mp ha
  simpa using h2.2

theorem chunkInd_length_le (N : Nat) (vals : List Nat) :
    (chunkInd (List.range N) vals).length ≤ vals.dedup.length := by
  have hnd : (chunkInd (List.range N) vals).Nodup := chunkInd_nodup _ _
  calc (chunkInd (List.range N) vals).length
      = (chunkInd (List.range N) vals).toFinset.card :=
        (List.toFinset_card_of_nodup hnd).symm
    _ ≤ vals.toFinset.card := by
        apply Finset.card_le_card
        intro a ha
        rw [List.mem_toFinset] at ha ⊢
        exact chunkInd_subset N vals a ha
    _ = vals.dedup.length := List.card_toFinset vals

theorem chunkInd_perm (N : Nat) (vals : List Nat) (hnd : vals.Nodup)
    (hsub : ∀ v ∈ vals, v < N) :
    (chunkInd (List.range N) vals).Perm vals := by
  apply List.perm_of_nodup_nodup_toFinset_eq (chunkInd_nodup _ _) hnd
  apply List.toFinset.ext
  intro x
  rw [chunkInd_range_eq, List.mem_filter, List.mem_range]
  constructor
  · intro h
    simpa using h.2
  · intro h
    exact ⟨hsub x h, by simpa using h⟩

theorem chunkInd_eq_of_sorted (N : Nat) (vals : List Nat)
    (hs : List.Pairwise (· < ·) vals) (hsub : ∀ v ∈ vals, v < N) :
    chunkInd (List.range N) vals = vals := by
  have hnd : vals.Nodup := hs.imp Nat.ne_of_lt
  have hs1 : List.Sorted (· ≤ ·) (chunkInd (List.range N) vals) :=
    (chunkInd_sorted _ _).imp Nat.le_of_lt
  have hs2 : List.Sorted (· ≤ ·) vals := hs.imp Nat.le_of_lt
  exact List.eq_of_perm_of_sorted (chunkInd_perm N vals hnd hsub) hs1 hs2

theorem chunksGo_isSome_of_bad (csize n : Nat) (sel : List Bool)
    (flatid allFlat : List Nat) (cs : List Nat) (c : Nat) (hc : c ∈ cs)
    (hbad : selCount (chunkSel sel (c * csize) (min n ((c + 1) * csize))) ≠
      (chunkInd allFlat (maskList flatid
        (chunkSel sel (c * csize) (min n ((c + 1) * csize))))).length) :
    ∀ acc, (chunksGo csize n sel flatid allFlat cs acc).2.isSome = true := by
  induction cs with
  | nil => cases hc
  | cons c0 rest ih =>
    intro acc
    simp only [chunksGo]
    by_cases h0 : selCount (chunkSel sel (c0 * csize) (min n ((c0 + 1) * csize))) ≠
        (chunkInd allFlat (maskList flatid
          (chunkSel sel (c0 * csize) (min n ((c0 + 1) * csize))))).length
    · rw [if_pos h0]
      rfl
    · rw [if_neg h0]
      rcases List.mem_cons.mp hc with rfl | hmem
      · exact absurd hbad h0
      · by_cases h1 : selCount (chunkSel sel (c0 * csize) (min n ((c0 + 1) * csize))) = 0
        · rw [if_pos h1]
          exact ih hmem _
        · rw [if_neg h1]
          exact ih hmem _

theorem chunksGo_skip_empty (csize n : Nat) (sel : List Bool)
    (flatid allFlat : List Nat) (cs : List Nat)
    (acc : List (List (Nat × Nat))) (c : Nat)
    (h0 : selCount (chunkSel sel (c * csize) (min n ((c + 1) * csize))) = 0) :
    chunksGo csize n sel flatid allFlat (c :: cs) acc =
      chunksGo csize n sel flatid allFlat cs acc := by
  simp only [chunksGo]
  have hnil : maskList flatid (chunkSel sel (c * csize) (min n ((c + 1) * csize))) = [] :=
    maskList_nil_of_selCount_zero _ _ h0
  rw [hnil, chunkInd_nil, h0]
  rw [if_neg (by simp)]
  rw [if_pos rfl]

/-! ## Run-level lemmas -/

theorem processFile_trivial (np ftr nt m : Nat) (fd : FileData) (st : RunState)
    (h : selCount (finalSel np (ftr + nt) fd.tid) = 0) :
    processFile np ftr nt m fd st = (st, none) := by
  simp only [processFile]
  rw [if_pos h]

theorem processFile_snd_mismatch (np ftr nt m : Nat) (fd : FileData) (st : RunState)
    (hsel : ¬ selCount (finalSel np (ftr + nt) fd.tid) = 0)
    (hc : (processChunks chunk_size fd.tid.length (finalSel np (ftr + nt) fd.tid)
        (flatidRow np ftr fd.tid fd.cid) (allFlatid ftr nt np)).2.isSome = true) :
    ∃ c, (processFile np ftr nt m fd st).2 = some (Abort.mismatch m c) := by
  obtain ⟨c, hc2⟩ := Option.isSome_iff_exists.mp hc
  refine ⟨c, ?_⟩
  simp only [processFile]
  rw [if_neg hsel, hc2]

theorem processFile_flags (np ftr nt m : Nat) (fd : FileData) (st : RunState) :
    (processFile np ftr nt m fd st).1.created = st.created ∧
    (processFile np ftr nt m fd st).1.removed = st.removed ∧
    (processFile np ftr nt m fd st).1.committed = st.committed ∧
    (processFile np ftr nt m fd st).1.trainOut = st.trainOut := by
  simp only [processFile, metaStep]
  split
  · exact ⟨rfl, rfl, rfl, rfl⟩
  · split
    · exact ⟨rfl, rfl, rfl, rfl⟩
    · split
      · exact ⟨rfl, rfl, rfl, rfl⟩
      · exact ⟨rfl, rfl, rfl, rfl⟩

theorem filesGo_isSome (np ftr nt m : Nat) (files : List FileData) (fd : FileData)
    (hmem : fd ∈ files)
    (h : ∀ st2, (processFile np ftr nt m fd st2).2.isSome = true) :
    ∀ st, (filesGo np ftr nt m files st).2.isSome = true := by
  induction files with
  | nil => cases hmem
  | cons g rest ih =>
    intro st
    simp only [filesGo]
    rcases hpg : processFile np ftr nt m g st with ⟨st1, o⟩
    cases o with
    | some a => rfl
    | none =>
      rcases List.mem_cons.mp hmem with rfl | hmem2
      · have h2 := h st
        rw [hpg] at h2
        simp at h2
      · exact ih hmem2 st1

theorem filesGo_flags (np ftr nt m : Nat) (files : List FileData) :
    ∀ st, (filesGo np ftr nt m files st).1.created = st.created ∧
      (filesGo np ftr nt m files st).1.removed = st.removed ∧
      (filesGo np ftr nt m files st).1.committed = st.committed ∧
      (filesGo np ftr nt m files st).1.trainOut = st.trainOut := by
  induction files with
  | nil => exact fun st => ⟨rfl, rfl, rfl, rfl⟩
  | cons g rest ih =>
    intro st
    simp only [filesGo]
    rcases hpg : processFile np ftr nt m g st with ⟨st1, o⟩
    have hfl := processFile_flags np ftr nt m g st
    rw [hpg] at hfl
    cases o with
    | some a => exact hfl
    | none =>
      have h2 := ih st1
      exact ⟨h2.1.trans hfl.1, (h2.2.1).trans hfl.2.1,
        (h2.2.2.1).trans hfl.2.2.1, (h2.2.2.2).trans hfl.2.2.2⟩

theorem modulesGo_isSome (np ftr nt : Nat) (modules : List (List FileData))
    (fs : List FileData) (hmem : fs ∈ modules)
    (h : ∀ m st, (filesGo np ftr nt m fs st).2.isSome = true) :
    ∀ m0 st, (modulesGo np ftr nt m0 modules st).2.isSome = true := by
  induction modules with
  | nil => cases hmem
  | cons g rest ih =>
    intro m0 st
    simp only [modulesGo]
    rcases hpg : filesGo np ftr nt m0 g st with ⟨st1, o⟩
    cases o with
    | some a => rfl
    | none =>
      rcases List.mem_cons.mp hmem with rfl | hmem2
      · have h2 := h m0 st
        rw [hpg] at h2
        simp at h2
      · exact ih hmem2 (m0 + 1) st1

theorem modulesGo_flags (np ftr nt : Nat) (modules : List (List FileData)) :
    ∀ m0 st, (modulesGo np ftr nt m0 modules st).1.created = st.created ∧
      (modulesGo np ftr nt m0 modules st).1.removed = st.removed ∧
      (modulesGo np ftr nt m0 modules st).1.committed = st.committed ∧
      (modulesGo np ftr nt m0 modules st).1.trainOut = st.trainOut := by
  induction modules with
  | nil => exact fun m0 st => ⟨rfl, rfl, rfl, rfl⟩
  | cons g rest ih =>
    intro m0 st
    simp only [modulesGo]
    rcases hpg : filesGo np ftr nt m0 g st with ⟨st1, o⟩
    have hfl := filesGo_flags np ftr nt m0 g st
    rw [hpg] at hfl
    cases o with
    | some a => exact hfl
    | none =>
      have h2 := ih (m0 + 1) st1
      exact ⟨h2.1.trans hfl.1, (h2.2.1).trans hfl.2.1,
        (h2.2.2.1).trans hfl.2.2.1, (h2.2.2.2).trans hfl.2.2.2⟩

theorem run_isSome_of_file (np ftr nt : Nat) (modules : List (List FileData))
    (fs : List FileData) (fd : FileData) (hfs : fs ∈ modules) (hfd : fd ∈ fs)
    (h : ∀ m st, (processFile np ftr nt m fd st).2.isSome = true) :
    (runVDS np ftr nt modules).2.isSome = true := by
  have hm := modulesGo_isSome np ftr nt modules fs hfs
    (fun m st => filesGo_isSome np ftr nt m fs fd hfd (h m) st) 0
    (initState ftr nt np)
  rw [runVDS]
  rcases hr : modulesGo np ftr nt 0 modules (initState ftr nt np) with ⟨st, o⟩
  rw [hr] at hm
  cases o with
  | some a => rfl
  | none => simp at hm

theorem filesGo_trivial (np ftr nt m : Nat) (files : List FileData)
    (h : ∀ fd ∈ files, selCount (finalSel np (ftr + nt) fd.tid) = 0) :
    ∀ st, filesGo np ftr nt m files st = (st, none) := by
  induction files with
  | nil => exact fun st => rfl
  | cons g rest ih =>
    intro st
    simp only [filesGo]
    rw [processFile_trivial np ftr nt m g st (h g (List.mem_cons_self g rest))]
    exact ih (fun fd hfd => h fd (List.mem_cons_of_mem g hfd)) st

theorem modulesGo_trivial (np ftr nt : Nat) (modules : List (List FileData))
    (h : ∀ fs ∈ modules, ∀ fd ∈ fs, selCount (finalSel np (ftr + nt) fd.tid) = 0) :
    ∀ m0 st, modulesGo np ftr nt m0 modules st = (st, none) := by
  induction modules with
  | nil => exact fun m0 st => rfl
  | cons g rest ih =>
    intro m0 st
    simp only [modulesGo]
    rw [filesGo_trivial np ftr nt m0 g (h g (List.mem_cons_self g rest)) st]
    exact ih (fun fs hfs fd hfd => h fs (List.mem_cons_of_mem g hfs) fd hfd) (m0 + 1) st

theorem selCount_chunkSel_zero (s : List Bool) (st en : Nat)
    (h : selCount s = 0) : selCount (chunkSel s st en) = 0 := by
  rw [selCount, List.count_eq_zero]
  intro hmem
  rw [chunkSel, List.mem_map] at hmem
  obtain ⟨j, hj, heq⟩ := hmem
  have hjlt : j < s.length := List.mem_range.mp hj
  have hsj : s.getD j false = true := by
    have := (Bool.and_eq_true _ _).mp heq
    exact this.2
  exact selCount_ne_zero s j hjlt hsj h

/-! ## Claims C2, C3, C5: fill values, abort artifacts, mapping integrity -/

/-! ## Untouched-position lemmas for the run -/

theorem zip_lookup_none (idxs vals : List Nat) (f : Nat) (hf : f ∉ idxs) :
    (idxs.zip vals).lookup f = none := by
  induction idxs generalizing vals with
  | nil => rfl
  | cons i is ih =>
    cases vals with
    | nil => rfl
    | cons v vs =>
      rw [List.zip_cons_cons]
      have hne : (f == i) = false := by
        rw [beq_eq_false_iff_ne]
        intro he
        exact hf (he ▸ List.mem_cons_self i is)
      simp only [List.lookup, hne]
      exact ih vs (fun hm => hf (List.mem_cons_of_mem i hm))

theorem maskedWrite_untouched (arr : Nat → Nat) (idxs vals : List Nat) (f : Nat)
    (hf : f ∉ idxs) (g : Nat → Nat) (hg : maskedWrite arr idxs vals = some g) :
    g f = arr f := by
  rw [maskedWrite] at hg
  split at hg
  · have hgg : (fun x => ((idxs.zip vals).lookup x).getD (arr x)) = g :=
      Option.some.inj hg
    rw [← hgg]
    show ((idxs.zip vals).lookup f).getD (arr f) = arr f
    rw [zip_lookup_none idxs vals f hf]
    rfl
  · simp at hg

theorem mem_metaIndices (allT tidSurv : List Nat) (f : Nat)
    (hf : f ∈ metaIndices allT tidSurv) : allT.getD f 0 ∈ tidSurv := by
  rw [metaIndices, List.mem_filter] at hf
  simpa using hf.2

theorem mem_chunkInd (allFlat vals : List Nat) (d : Nat)
    (hd : d ∈ chunkInd allFlat vals) :
    d < allFlat.length ∧ allFlat.getD d 0 ∈ vals := by
  rw [chunkInd, List.mem_filter, List.mem_range] at hd
  exact ⟨hd.1, by simpa using hd.2⟩

theorem exists_of_mem_maskList (xs : List Nat) (s : List Bool) (v : Nat)
    (hv : v ∈ maskList xs s) :
    ∃ r, r < xs.length ∧ r < s.length ∧ s.getD r false = true ∧ v = xs.getD r 0 := by
  induction xs generalizing s with
  | nil =>
    cases s with
    | nil => cases hv
    | cons b bs => cases hv
  | cons x xs ih =>
    cases s with
    | nil => cases hv
    | cons b bs =>
      cases b with
      | true =>
        have hml : maskList (x :: xs) (true :: bs) = x :: maskList xs bs := by
          simp [maskList]
        rw [hml] at hv
        rcases List.mem_cons.mp hv with rfl | hv2
        · exact ⟨0, by simp, by simp, rfl, rfl⟩
        · obtain ⟨r, hr1, hr2, hr3, hr4⟩ := ih bs hv2
          exact ⟨r + 1, by simpa using hr1, by simpa using hr2,
            by rw [List.getD_cons_succ]; exact hr3,
            by rw [List.getD_cons_succ]; exact hr4⟩
      | false =>
        have hml : maskList (x :: xs) (false :: bs) = maskList xs bs := by
          simp [maskList]
        rw [hml] at hv
        obtain ⟨r, hr1, hr2, hr3, hr4⟩ := ih bs hv
        exact ⟨r + 1, by simpa using hr1, by simpa using hr2,
          by rw [List.getD_cons_succ]; exact hr3,
          by rw [List.getD_cons_succ]; exact hr4⟩

theorem maskList_subset (xs : List Nat) (csel sel : List Bool)
    (hmono : ∀ j, csel.getD j false = true → sel.getD j false = true)
    (hlen : sel.length = csel.length) :
    ∀ v ∈ maskList xs csel, v ∈ maskList xs sel := by
  intro v hv
  obtain ⟨r, hr1, hr2, hr3, hr4⟩ := exists_of_mem_maskList xs csel v hv
  rw [hr4]
  exact mem_maskList xs sel r hr1 (by omega) (hmono r hr3)

theorem chunkSel_mono (s : List Bool) (st en : Nat) :
    ∀ j, (chunkSel s st en).getD j false = true → s.getD j false = true := by
  intro j hj
  by_cases hlt : j < s.length
  · rw [chunkSel_getD s st en j hlt] at hj
    exact ((Bool.and_eq_true _ _).mp hj).2
  · exfalso
    rw [List.getD_eq_default _ _ (by rw [length_chunkSel]; omega)] at hj
    exact Bool.false_ne_true hj

theorem chunksGo_dests (csize n : Nat) (sel : List Bool) (flatid allFlat : List Nat)
    (cs : List Nat) (acc : List (List (Nat × Nat)))
    (hacc : ∀ ch ∈ acc, ∀ p ∈ ch, p.2 < allFlat.length ∧
      allFlat.getD p.2 0 ∈ maskList flatid sel) :
    ∀ ch ∈ (chunksGo csize n sel flatid allFlat cs acc).1, ∀ p ∈ ch,
      p.2 < allFlat.length ∧ allFlat.getD p.2 0 ∈ maskList flatid sel := by
  induction cs generalizing acc with
  | nil => exact hacc
  | cons c rest ih =>
    simp only [chunksGo]
    split
    · exact hacc
    · split
      · exact ih acc hacc
      · apply ih
        intro ch hch p hp
        rcases List.mem_append.mp hch with h | h
        · exact hacc ch h p hp
        · have hch2 : ch = (selRows (chunkSel sel (c * csize) (min n ((c + 1) * csize)))).zip
              (chunkInd allFlat (maskList flatid
                (chunkSel sel (c * csize) (min n ((c + 1) * csize))))) := by
            simpa using h
          rw [hch2] at hp
          obtain ⟨a, b⟩ := p
          have hp2 := (List.of_mem_zip hp).2
          have hci := mem_chunkInd _ _ _ hp2
          refine ⟨hci.1, ?_⟩
          exact maskList_subset flatid _ sel (chunkSel_mono sel _ _)
            (length_chunkSel sel _ _).symm _ hci.2

theorem metaStep_layout (np ftr nt m : Nat) (fd : FileData) (sel : List Bool)
    (st1 : RunState) :
    (metaStep np ftr nt m fd sel st1).1.layoutWrites = st1.layoutWrites := by
  simp only [metaStep]
  split
  · rfl
  · rfl

theorem metaStep_untouched (np ftr nt m : Nat) (fd : FileData) (sel : List Bool)
    (st1 : RunState) (f : Nat)
    (hfi : f ∉ metaIndices (allTrains ftr nt np) (maskList fd.tid sel)) :
    (metaStep np ftr nt m fd sel st1).1.cidOut f = st1.cidOut f ∧
    (metaStep np ftr nt m fd sel st1).1.pidOut f = st1.pidOut f := by
  simp only [metaStep]
  rcases hcf : maskedWrite st1.cidOut
      (metaIndices (allTrains ftr nt np) (maskList fd.tid sel)) (maskList fd.cid sel)
    with _ | cf
  · rcases hpf : maskedWrite st1.pidOut
        (metaIndices (allTrains ftr nt np) (maskList fd.tid sel)) (maskList fd.pid sel)
      with _ | pf
    · simp only [hcf, hpf]
      exact ⟨trivial, trivial⟩
    · simp only [hcf, hpf]
      exact ⟨trivial, trivial⟩
  · rcases hpf : maskedWrite st1.pidOut
        (metaIndices (allTrains ftr nt np) (maskList fd.tid sel)) (maskList fd.pid sel)
      with _ | pf
    · simp only [hcf, hpf]
      exact ⟨trivial, trivial⟩
    · simp only [hcf, hpf]
      exact ⟨maskedWrite_untouched _ _ _ f hfi cf hcf,
        maskedWrite_untouched _ _ _ f hfi pf hpf⟩

theorem processFile_meta_untouched (np ftr nt m : Nat) (fd : FileData) (st : RunState)
    (f : Nat)
    (htr : (allTrains ftr nt np).getD f 0 ∉
      maskList fd.tid (finalSel np (ftr + nt) fd.tid)) :
    (processFile np ftr nt m fd st).1.cidOut f = st.cidOut f ∧
    (processFile np ftr nt m fd st).1.pidOut f = st.pidOut f := by
  have hfi : f ∉ metaIndices (allTrains ftr nt np)
      (maskList fd.tid (finalSel np (ftr + nt) fd.tid)) :=
    fun hmem => htr (mem_metaIndices _ _ f hmem)
  simp only [processFile]
  split
  · exact ⟨rfl, rfl⟩
  · split
    · exact ⟨rfl, rfl⟩
    · exact metaStep_untouched np ftr nt m fd _ _ f hfi

theorem processFile_payload (np ftr nt m : Nat) (fd : FileData) (st : RunState) (f : Nat)
    (h1 : ftr + nt ≤ U64) (h2 : nt * np ≤ U64)
    (hf : f ∉ maskList (flatidRow np ftr fd.tid fd.cid) (finalSel np (ftr + nt) fd.tid))
    (hst : ∀ e ∈ st.layoutWrites, e.2.2 ≠ f) :
    ∀ e ∈ (processFile np ftr nt m fd st).1.layoutWrites, e.2.2 ≠ f := by
  have hAF := allFlatid_eq_range ftr nt np h1 h2
  have hnew : ∀ e ∈ (processChunks chunk_size fd.tid.length
      (finalSel np (ftr + nt) fd.tid) (flatidRow np ftr fd.tid fd.cid)
      (allFlatid ftr nt np)).1.flatMap
        (fun ch => ch.map (fun p => (m, p.1, p.2))), e.2.2 ≠ f := by
    intro e he
    rw [List.mem_flatMap] at he
    obtain ⟨ch, hch, hech⟩ := he
    rw [List.mem_map] at hech
    obtain ⟨p, hp, rfl⟩ := hech
    simp only [processChunks] at hch
    have hP := chunksGo_dests chunk_size fd.tid.length (finalSel np (ftr + nt) fd.tid)
      (flatidRow np ftr fd.tid fd.cid) (allFlatid ftr nt np)
      (List.range (numChunks fd.tid.length chunk_size)) []
      (by intro ch2 hch2; cases hch2) ch hch p hp
    intro hef
    have hef2 : p.2 = f := hef
    have hgd : (allFlatid ftr nt np).getD p.2 0 = p.2 := by
      rw [hAF]
      exact getD_range _ _ (by rw [← List.length_range (nt * np), ← hAF]; exact hP.1)
    have hmem2 : p.2 ∈ maskList (flatidRow np ftr fd.tid fd.cid)
        (finalSel np (ftr + nt) fd.tid) := by
      rw [← hgd]
      exact hP.2
    exact hf (hef2 ▸ hmem2)
  simp only [processFile]
  split
  · exact hst
  · split
    · intro e he
      rcases List.mem_append.mp he with h | h
      · exact hst e h
      · exact hnew e h
    · intro e he
      rw [metaStep_layout] at he
      rcases List.mem_append.mp he with h | h
      · exact hst e h
      · exact hnew e h

theorem filesGo_payload (np ftr nt m : Nat) (files : List FileData) (f : Nat)
    (h1 : ftr + nt ≤ U64) (h2 : nt * np ≤ U64)
    (hall : ∀ fd ∈ files, f ∉ maskList (flatidRow np ftr fd.tid fd.cid)
      (finalSel np (ftr + nt) fd.tid)) :
    ∀ st, (∀ e ∈ st.layoutWrites, e.2.2 ≠ f) →
      ∀ e ∈ (filesGo np ftr nt m files st).1.layoutWrites, e.2.2 ≠ f := by
  induction files with
  | nil => exact fun st hst => hst
  | cons g rest ih =>
    intro st hst
    simp only [filesGo]
    rcases hpg : processFile np ftr nt m g st with ⟨st1, o⟩
    have hst1 : ∀ e ∈ st1.layoutWrites, e.2.2 ≠ f := by
      have hh := processFile_payload np ftr nt m g st f h1 h2
        (hall g (List.mem_cons_self g rest)) hst
      rw [hpg] at hh
      exact hh
    cases o with
    | some a => exact hst1
    | none => exact ih (fun fd hfd => hall fd (List.mem_cons_of_mem g hfd)) st1 hst1

theorem modulesGo_payload (np ftr nt : Nat) (modules : List (List FileData)) (f : Nat)
    (h1 : ftr + nt ≤ U64) (h2 : nt * np ≤ U64)
    (hall : ∀ fs ∈ modules, ∀ fd ∈ fs,
      f ∉ maskList (flatidRow np ftr fd.tid fd.cid) (finalSel np (ftr + nt) fd.tid)) :
    ∀ m0 st, (∀ e ∈ st.layoutWrites, e.2.2 ≠ f) →
      ∀ e ∈ (modulesGo np ftr nt m0 modules st).1.layoutWrites, e.2.2 ≠ f := by
  induction modules with
  | nil => exact fun m0 st hst => hst
  | cons g rest ih =>
    intro m0 st hst
    simp only [modulesGo]
    rcases hpg : filesGo np ftr nt m0 g st with ⟨st1, o⟩
    have hst1 : ∀ e ∈ st1.layoutWrites, e.2.2 ≠ f := by
      have hh := filesGo_payload np ftr nt m0 g f h1 h2
        (hall g (List.mem_cons_self g rest)) st hst
      rw [hpg] at hh
      exact hh
    cases o with
    | some a => exact hst1
    | none =>
      exact ih (fun fs hfs => hall fs (List.mem_cons_of_mem g hfs)) (m0 + 1) st1 hst1

theorem filesGo_meta (np ftr nt m : Nat) (files : List FileData) (f : Nat)
    (hall : ∀ fd ∈ files, (allTrains ftr nt np).getD f 0 ∉
      maskList fd.tid (finalSel np (ftr + nt) fd.tid)) :
    ∀ st, (filesGo np ftr nt m files st).1.cidOut f = st.cidOut f ∧
      (filesGo np ftr nt m files st).1.pidOut f = st.pidOut f := by
  induction files with
  | nil => exact fun st => ⟨rfl, rfl⟩
  | cons g rest ih =>
    intro st
    simp only [filesGo]
    rcases hpg : processFile np ftr nt m g st with ⟨st1, o⟩
    have hp := processFile_meta_untouched np ftr nt m g st f
      (hall g (List.mem_cons_self g rest))
    rw [hpg] at hp
    cases o with
    | some a => exact hp
    | none =>
      have h2 := ih (fun fd hfd => hall fd (List.mem_cons_of_mem g hfd)) st1
      exact ⟨h2.1.trans hp.1, h2.2.trans hp.2⟩

theorem modulesGo_meta (np ftr nt : Nat) (modules : List (List FileData)) (f : Nat)
    (hall : ∀ fs ∈ modules, ∀ fd ∈ fs, (allTrains ftr nt np).getD f 0 ∉
      maskList fd.tid (finalSel np (ftr + nt) fd.tid)) :
    ∀ m0 st, (modulesGo np ftr nt m0 modules st).1.cidOut f = st.cidOut f ∧
      (modulesGo np ftr nt m0 modules st).1.pidOut f = st.pidOut f := by
  induction modules with
  | nil => exact fun m0 st => ⟨rfl, rfl⟩
  | cons g rest ih =>
    intro m0 st
    simp only [modulesGo]
    rcases hpg : filesGo np ftr nt m0 g st with ⟨st1, o⟩
    have hp := filesGo_meta np ftr nt m0 g f (hall g (List.mem_cons_self g rest)) st
    rw [hpg] at hp
    cases o with
    | some a => exact hp
    | none =>
      have h2 := ih (fun fs hfs => hall fs (List.mem_cons_of_mem g hfs)) (m0 + 1) st1
      exact ⟨h2.1.trans hp.1, h2.2.trans hp.2⟩

theorem payloadRead_fill (st : RunState) (m f : Nat)
    (h : ∀ e ∈ st.layoutWrites, e.2.2 ≠ f) :
    payloadRead st m f = Sum.inl uint16Max := by
  rw [payloadRead, payloadSource]
  have hnil : st.layoutWrites.filter
      (fun e => decide (e.1 = m) && decide (e.2.2 = f)) = [] := by
    rw [List.filter_eq_nil_iff]
    intro e he
    simp [h e he]
  rw [hnil]
  rfl

/-- C2, counterexample.  A completed run (the cross-chunk duplicate input,
rows 0 and 32 carrying train 5, cell 1, with `firstTrainId = 5`,
`trainCount = 3`, `pulsesPerTrain = 2`) has no module contributing a frame
at canonical position 0: the payload there reads the declared fill.  But
the claim is false for the metadata arrays: the masked write of lines
130-135 covers *every* slot of a surviving train, so position 0 (train 5,
slot 0, where no frame landed) reads `cellId = 1` and `pulseId = 1`, not
the 0xFFFF sentinel; and the `trainId` array is never sentinel-filled at
all — it reads the canonical train number 5 (line 78). -/
theorem C2_fill_counterexample :
    (runVDS 2 5 3 [[⟨[5] ++ List.replicate 31 0 ++ [5],
        [1] ++ List.replicate 31 0 ++ [1], [1] ++ List.replicate 31 0 ++ [1]⟩]]).2 =
      none ∧
    payloadRead (runVDS 2 5 3 [[⟨[5] ++ List.replicate 31 0 ++ [5],
        [1] ++ List.replicate 31 0 ++ [1], [1] ++ List.replicate 31 0 ++ [1]⟩]]).1 0 0 =
      Sum.inl uint16Max ∧
    (runVDS 2 5 3 [[⟨[5] ++ List.replicate 31 0 ++ [5],
        [1] ++ List.replicate 31 0 ++ [1],
        [1] ++ List.replicate 31 0 ++ [1]⟩]]).1.cidOut 0 = 1 ∧
    (runVDS 2 5 3 [[⟨[5] ++ List.replicate 31 0 ++ [5],
        [1] ++ List.replicate 31 0 ++ [1],
        [1] ++ List.replicate 31 0 ++ [1]⟩]]).1.pidOut 0 = 1 ∧
    (1 : Nat) ≠ uint16Max ∧
    (runVDS 2 5 3 [[⟨[5] ++ List.replicate 31 0 ++ [5],
        [1] ++ List.replicate 31 0 ++ [1],
        [1] ++ List.replicate 31 0 ++ [1]⟩]]).1.trainOut 0 = 5 ∧
    (5 : Nat) ≠ uint16Max := by
  decide

/-- C2 (amended): for every run and canonical position `f`, (a) the
`trainId` array reads the canonical train number (`firstTrainId +
f / pulsesPerTrain` for in-range `f`), never a sentinel; (b) if no file's
surviving rows compute position `f`, the payload at `(m, f)` reads the
declared `uint16Max` fill for every module `m`; (c) the `cellId`/`pulseId`
sentinel survives at `f` only at train granularity: when no file has a
surviving row whose train id equals `f`'s canonical train, both arrays
still read 0xFFFF at `f` — but a position of a surviving train reads that
train's metadata even when no frame landed there
(`C2_fill_counterexample`). -/
theorem C2_fill_values (np ftr nt : Nat) (h1 : ftr + nt ≤ U64) (h2 : nt * np ≤ U64)
    (modules : List (List FileData)) (f : Nat) :
    ((runVDS np ftr nt modules).1.trainOut f = (allTrains ftr nt np).getD f 0 ∧
      (f < nt * np → (runVDS np ftr nt modules).1.trainOut f = ftr + f / np)) ∧
    ((∀ fs ∈ modules, ∀ fd ∈ fs,
        f ∉ maskList (flatidRow np ftr fd.tid fd.cid) (finalSel np (ftr + nt) fd.tid)) →
      ∀ m, payloadRead (runVDS np ftr nt modules).1 m f = Sum.inl uint16Max) ∧
    ((∀ fs ∈ modules, ∀ fd ∈ fs,
        (allTrains ftr nt np).getD f 0 ∉ maskList fd.tid (finalSel np (ftr + nt) fd.tid)) →
      (runVDS np ftr nt modules).1.cidOut f = uint16Max ∧
      (runVDS np ftr nt modules).1.pidOut f = uint16Max) := by
  have hfl := modulesGo_flags np ftr nt modules 0 (initState ftr nt np)
  rw [runVDS]
  rcases hr : modulesGo np ftr nt 0 modules (initState ftr nt np) with ⟨st, o⟩
  rw [hr] at hfl
  have htr0 : st.trainOut f = (allTrains ftr nt np).getD f 0 := by
    rw [hfl.2.2.2]
    rfl
  have hpay : (∀ fs ∈ modules, ∀ fd ∈ fs,
      f ∉ maskList (flatidRow np ftr fd.tid fd.cid) (finalSel np (ftr + nt) fd.tid)) →
      ∀ e ∈ st.layoutWrites, e.2.2 ≠ f := by
    intro hall
    have hh := modulesGo_payload np ftr nt modules f h1 h2 hall 0 (initState ftr nt np)
      (by intro e he; cases he)
    rw [hr] at hh
    exact hh
  have hmet : (∀ fs ∈ modules, ∀ fd ∈ fs,
      (allTrains ftr nt np).getD f 0 ∉ maskList fd.tid (finalSel np (ftr + nt) fd.tid)) →
      st.cidOut f = uint16Max ∧ st.pidOut f = uint16Max := by
    intro hall
    have hm := modulesGo_meta np ftr nt modules f hall 0 (initState ftr nt np)
    rw [hr] at hm
    exact hm
  cases o with
  | none =>
    exact ⟨⟨htr0, fun hflt => htr0.trans (allTrains_getD ftr nt np f hflt h1)⟩,
      fun hall m => payloadRead_fill _ m f (hpay hall),
      fun hall => hmet hall⟩
  | some a =>
    exact ⟨⟨htr0, fun hflt => htr0.trans (allTrains_getD ftr nt np f hflt h1)⟩,
      fun hall m => payloadRead_fill _ m f (hpay hall),
      fun hall => hmet hall⟩

/-- Witness for `C2_fill_values`: a completed single-module run with the
fully populated surviving train 10 (rows `(10,0)` and `(10,1)`,
`firstTrainId = 10`, `trainCount = 3`, `pulsesPerTrain = 2`) contributes
frames at positions 0 and 1 only; position 4 (train 12, which no file's
surviving rows cover) reads the payload fill, the 0xFFFF sentinel in
`cellId` and `pulseId`, and the canonical train number `10 + 4 / 2 = 12`
in `trainId`. -/
theorem C2_fill_values_witness :
    payloadRead (runVDS 2 10 3 [[⟨[10, 10], [0, 1], [0, 1]⟩]]).1 0 4 =
      Sum.inl uint16Max ∧
    (runVDS 2 10 3 [[⟨[10, 10], [0, 1], [0, 1]⟩]]).1.cidOut 4 = uint16Max ∧
    (runVDS 2 10 3 [[⟨[10, 10], [0, 1], [0, 1]⟩]]).1.pidOut 4 = uint16Max ∧
    (runVDS 2 10 3 [[⟨[10, 10], [0, 1], [0, 1]⟩]]).1.trainOut 4 = 10 + 4 / 2 := by
  have h := C2_fill_values 2 10 3 (by decide) (by decide)
    [[⟨[10, 10], [0, 1], [0, 1]⟩]] 4
  exact ⟨h.2.1 (by decide) 0, (h.2.2 (by decide)).1, (h.2.2 (by decide)).2,
    h.1.2 (by decide)⟩

/-- C3, counterexample.  The run with one module file whose single row has
`trainId = 5` (with `firstTrainId = 10`, `trainCount = 5`) passes the
validator (5 < ltrain) but its wrapped uint64 position matches no canonical
index, so chunk 0 of module 0 fails the mapping-integrity check and the
run aborts — yet the output file, created and partially written at lines
77-86 before any module processing, is still present (`created`, not
`removed`, not committed): the `return` at line 121 neither deletes nor
closes it, so a half-written artifact remains visible, contradicting the
claim. -/
theorem C3_abort_counterexample :
    (runVDS 2 10 5 [[⟨[5], [0], [0]⟩]]).2 = some (Abort.mismatch 0 0) ∧
    (runVDS 2 10 5 [[⟨[5], [0], [0]⟩]]).1.created = true ∧
    (runVDS 2 10 5 [[⟨[5], [0], [0]⟩]]).1.removed = false ∧
    (runVDS 2 10 5 [[⟨[5], [0], [0]⟩]]).1.committed = false := by
  decide

/-- C3 (amended): on any run, the output file is created (and the metadata
datasets written) before module processing and is never removed; when the
run aborts, the virtual dataset is never committed, so the partially
written output file remains visible to readers. -/
theorem C3_abort_artifact (np ftr nt : Nat) (modules : List (List FileData)) :
    (runVDS np ftr nt modules).1.created = true ∧
    (runVDS np ftr nt modules).1.removed = false ∧
    ((runVDS np ftr nt modules).2 ≠ none →
      (runVDS np ftr nt modules).1.committed = false) := by
  have hfl := modulesGo_flags np ftr nt modules 0 (initState ftr nt np)
  rw [runVDS]
  rcases hr : modulesGo np ftr nt 0 modules (initState ftr nt np) with ⟨st, o⟩
  rw [hr] at hfl
  cases o with
  | none => exact ⟨hfl.1, hfl.2.1, fun h => absurd rfl h⟩
  | some a => exact ⟨hfl.1, hfl.2.1, fun h => hfl.2.2.1⟩

/-- Witness for `C3_abort_artifact` on the aborting run of
`C3_abort_counterexample`. -/
theorem C3_abort_artifact_witness :
    (runVDS 2 10 5 [[⟨[5], [0], [0]⟩]]).1.committed = false :=
  (C3_abort_artifact 2 10 5 [[⟨[5], [0], [0]⟩]]).2.2 (by decide)

/-- C5: if any chunk `c` of any module file has a selected-row count that
differs from the number of computed distinct canonical destinations, the
file's processing yields `Abort.mismatch` (for any module index and any
incoming state) and the whole run aborts; and a chunk with no selected rows
is skipped: it produces no mapping entry and no error. -/
theorem C5_mapping_integrity (np ftr nt : Nat) (modules : List (List FileData))
    (fs : List FileData) (fd : FileData) (hfs : fs ∈ modules) (hfd : fd ∈ fs)
    (c : Nat) (hc : c < numChunks fd.tid.length chunk_size)
    (hbad : selCount (chunkSel (finalSel np (ftr + nt) fd.tid) (c * chunk_size)
        (min fd.tid.length ((c + 1) * chunk_size))) ≠
      (chunkInd (allFlatid ftr nt np)
        (maskList (flatidRow np ftr fd.tid fd.cid)
          (chunkSel (finalSel np (ftr + nt) fd.tid) (c * chunk_size)
            (min fd.tid.length ((c + 1) * chunk_size))))).length) :
    ((∀ m st, ∃ c2, (processFile np ftr nt m fd st).2 = some (Abort.mismatch m c2)) ∧
      (runVDS np ftr nt modules).2.isSome = true) ∧
    (∀ (csize n : Nat) (sel : List Bool) (flatid allFlat : List Nat)
      (cs : List Nat) (acc : List (List (Nat × Nat))) (c2 : Nat),
      selCount (chunkSel sel (c2 * csize) (min n ((c2 + 1) * csize))) = 0 →
      chunksGo csize n sel flatid allFlat (c2 :: cs) acc =
        chunksGo csize n sel flatid allFlat cs acc) := by
  have hsel : ¬ selCount (finalSel np (ftr + nt) fd.tid) = 0 := by
    intro h0
    apply hbad
    have hcz : selCount (chunkSel (finalSel np (ftr + nt) fd.tid) (c * chunk_size)
        (min fd.tid.length ((c + 1) * chunk_size))) = 0 :=
      selCount_chunkSel_zero _ _ _ h0
    rw [hcz, maskList_nil_of_selCount_zero _ _ hcz, chunkInd_nil]
    rfl
  have hchunks : (processChunks chunk_size fd.tid.length (finalSel np (ftr + nt) fd.tid)
      (flatidRow np ftr fd.tid fd.cid) (allFlatid ftr nt np)).2.isSome = true := by
    rw [processChunks]
    exact chunksGo_isSome_of_bad _ _ _ _ _ _ c (List.mem_range.mpr hc) hbad []
  have hpf : ∀ m st, ∃ c2, (processFile np ftr nt m fd st).2 =
      some (Abort.mismatch m c2) :=
    fun m st => processFile_snd_mismatch np ftr nt m fd st hsel hchunks
  refine ⟨⟨hpf, ?_⟩, fun csize n sel flatid allFlat cs acc c2 h0 =>
    chunksGo_skip_empty csize n sel flatid allFlat cs acc c2 h0⟩
  apply run_isSome_of_file np ftr nt modules fs fd hfs hfd
  intro m st
  obtain ⟨c2, hc2⟩ := hpf m st
  rw [hc2]
  rfl

/-- Witness for `C5_mapping_integrity`: the run of `C3_abort_counterexample`
has a mismatching chunk 0 (one selected row, zero destinations) and aborts. -/
theorem C5_mapping_integrity_witness :
    (runVDS 2 10 5 [[⟨[5], [0], [0]⟩]]).2.isSome = true :=
  ((C5_mapping_integrity 2 10 5 [[⟨[5], [0], [0]⟩]] [⟨[5], [0], [0]⟩] ⟨[5], [0], [0]⟩
    (by decide) (by decide) 0 (by decide) (by decide)).1).2

theorem exists_getD_ne (l1 l2 : List Nat) (hlen : l1.length = l2.length)
    (hne : l1 ≠ l2) : ∃ k, k < l1.length ∧ l1.getD k 0 ≠ l2.getD k 0 := by
  by_contra h
  push_neg at h
  apply hne
  apply List.ext_getElem hlen
  intro k hk1 hk2
  have hkd := h k hk1
  rw [List.getD_eq_getElem?_getD, List.getElem?_eq_getElem hk1,
    List.getD_eq_getElem?_getD, List.getElem?_eq_getElem hk2] at hkd
  exact hkd

/-! ## Claim C6: duplicate canonical positions within one module -/

/-- C6, counterexample.  One module file of 33 rows: rows 0 and 32 both
carry `(trainId, cellId) = (5, 1)` (the 31 rows between have the
`trainId = 0` sentinel), with `firstTrainId = 5`, `trainCount = 3`,
`pulsesPerTrain = 2`.  Both rows survive validation (train 5 occurs twice,
within budget) and compute the same canonical position 1, but they fall in
different physical chunks (0 and 32 with chunk size 32).  Each chunk passes
its own count check, so the run completes with no fault and both rows are
assigned to destination 1 — the later chunk's write silently overwrites the
earlier one (`payloadSource` reads row 32), contradicting the claim that
every duplicate canonical position is surfaced. -/
theorem C6_duplicate_counterexample :
    (finalSel 2 (5 + 3) ([5] ++ List.replicate 31 0 ++ [5])).getD 0 false = true ∧
    (finalSel 2 (5 + 3) ([5] ++ List.replicate 31 0 ++ [5])).getD 32 false = true ∧
    (flatidRow 2 5 ([5] ++ List.replicate 31 0 ++ [5])
        ([1] ++ List.replicate 31 0 ++ [1])).getD 0 0 =
      (flatidRow 2 5 ([5] ++ List.replicate 31 0 ++ [5])
        ([1] ++ List.replicate 31 0 ++ [1])).getD 32 0 ∧
    (runVDS 2 5 3 [[⟨[5] ++ List.replicate 31 0 ++ [5],
        [1] ++ List.replicate 31 0 ++ [1], [1] ++ List.replicate 31 0 ++ [1]⟩]]).2 =
      none ∧
    (runVDS 2 5 3 [[⟨[5] ++ List.replicate 31 0 ++ [5],
        [1] ++ List.replicate 31 0 ++ [1], [1] ++ List.replicate 31 0 ++ [1]⟩]]).1.layoutWrites =
      [(0, 0, 1), (0, 32, 1)] ∧
    payloadSource (runVDS 2 5 3 [[⟨[5] ++ List.replicate 31 0 ++ [5],
        [1] ++ List.replicate 31 0 ++ [1], [1] ++ List.replicate 31 0 ++ [1]⟩]]).1 0 1 =
      some (0, 32, 1) := by
  decide

/-- C6 (amended): when two distinct surviving rows of one module compute the
same canonical position and fall in the same physical chunk, the fault is
surfaced: the duplicate collapses in `chunk_ind`, the chunk's count check
fails, the file aborts with `Abort.mismatch` and the whole run aborts.
(Across different chunks no fault is raised and the later write silently
overwrites the earlier one — see `C6_duplicate_counterexample`.) -/
theorem C6_same_chunk_surfaced (np ftr nt : Nat) (modules : List (List FileData))
    (fs : List FileData) (fd : FileData) (hfs : fs ∈ modules) (hfd : fd ∈ fs)
    (h1 : ftr + nt ≤ U64) (h2 : nt * np ≤ U64)
    (hlen : fd.cid.length = fd.tid.length)
    (i j c : Nat) (hij : i < j) (hjn : j < fd.tid.length)
    (hci : c * chunk_size ≤ i) (hcj : j < min fd.tid.length ((c + 1) * chunk_size))
    (hsi : (finalSel np (ftr + nt) fd.tid).getD i false = true)
    (hsj : (finalSel np (ftr + nt) fd.tid).getD j false = true)
    (hdup : (flatidRow np ftr fd.tid fd.cid).getD i 0 =
      (flatidRow np ftr fd.tid fd.cid).getD j 0) :
    (∀ m st, ∃ c2, (processFile np ftr nt m fd st).2 = some (Abort.mismatch m c2)) ∧
    (runVDS np ftr nt modules).2.isSome = true := by
  have hsellen : (finalSel np (ftr + nt) fd.tid).length = fd.tid.length :=
    length_finalSel np (ftr + nt) fd.tid
  have hflen : (flatidRow np ftr fd.tid fd.cid).length = fd.tid.length := by
    rw [flatidRow, List.length_zipWith, hlen, Nat.min_self]
  have hcsellen : (chunkSel (finalSel np (ftr + nt) fd.tid) (c * chunk_size)
      (min fd.tid.length ((c + 1) * chunk_size))).length = fd.tid.length := by
    rw [length_chunkSel, hsellen]
  have hin : i < fd.tid.length := Nat.lt_trans hij hjn
  have hcsi : (chunkSel (finalSel np (ftr + nt) fd.tid) (c * chunk_size)
      (min fd.tid.length ((c + 1) * chunk_size))).getD i false = true := by
    rw [chunkSel_getD _ _ _ _ (by rw [hsellen]; exact hin)]
    rw [decide_eq_true hci, decide_eq_true (Nat.lt_trans hij hcj), hsi]
    rfl
  have hcsj : (chunkSel (finalSel np (ftr + nt) fd.tid) (c * chunk_size)
      (min fd.tid.length ((c + 1) * chunk_size))).getD j false = true := by
    rw [chunkSel_getD _ _ _ _ (by rw [hsellen]; exact hjn)]
    rw [decide_eq_true (Nat.le_trans hci (Nat.le_of_lt hij)), decide_eq_true hcj, hsj]
    rfl
  have hnnd : ¬ (maskList (flatidRow np ftr fd.tid fd.cid)
      (chunkSel (finalSel np (ftr + nt) fd.tid) (c * chunk_size)
        (min fd.tid.length ((c + 1) * chunk_size)))).Nodup :=
    maskList_not_nodup _ _ i j hij (by rw [hflen]; exact hjn)
      (by rw [hcsellen]; exact hjn) hcsi hcsj hdup
  have hbad : selCount (chunkSel (finalSel np (ftr + nt) fd.tid) (c * chunk_size)
      (min fd.tid.length ((c + 1) * chunk_size))) ≠
    (chunkInd (allFlatid ftr nt np)
      (maskList (flatidRow np ftr fd.tid fd.cid)
        (chunkSel (finalSel np (ftr + nt) fd.tid) (c * chunk_size)
          (min fd.tid.length ((c + 1) * chunk_size))))).length := by
    have hvl : (maskList (flatidRow np ftr fd.tid fd.cid)
        (chunkSel (finalSel np (ftr + nt) fd.tid) (c * chunk_size)
          (min fd.tid.length ((c + 1) * chunk_size)))).length =
        selCount (chunkSel (finalSel np (ftr + nt) fd.tid) (c * chunk_size)
          (min fd.tid.length ((c + 1) * chunk_size))) :=
      maskList_length _ _ (by rw [hflen, hcsellen])
    have hle : (chunkInd (allFlatid ftr nt np)
        (maskList (flatidRow np ftr fd.tid fd.cid)
          (chunkSel (finalSel np (ftr + nt) fd.tid) (c * chunk_size)
            (min fd.tid.length ((c + 1) * chunk_size))))).length ≤
        (maskList (flatidRow np ftr fd.tid fd.cid)
          (chunkSel (finalSel np (ftr + nt) fd.tid) (c * chunk_size)
            (min fd.tid.length ((c + 1) * chunk_size)))).dedup.length := by
      rw [allFlatid_eq_range ftr nt np h1 h2]
      exact chunkInd_length_le _ _
    have hlt := dedup_length_lt _ hnnd
    omega
  have hc : c < numChunks fd.tid.length chunk_size := by
    simp only [chunk_size] at hci
    simp only [numChunks, chunk_size]
    omega
  have hsel : ¬ selCount (finalSel np (ftr + nt) fd.tid) = 0 :=
    selCount_ne_zero _ i (by rw [hsellen]; exact hin) hsi
  have hchunks : (processChunks chunk_size fd.tid.length (finalSel np (ftr + nt) fd.tid)
      (flatidRow np ftr fd.tid fd.cid) (allFlatid ftr nt np)).2.isSome = true := by
    rw [processChunks]
    exact chunksGo_isSome_of_bad _ _ _ _ _ _ c (List.mem_range.mpr hc) hbad []
  have hpf : ∀ m st, ∃ c2, (processFile np ftr nt m fd st).2 =
      some (Abort.mismatch m c2) :=
    fun m st => processFile_snd_mismatch np ftr nt m fd st hsel hchunks
  refine ⟨hpf, ?_⟩
  apply run_isSome_of_file np ftr nt modules fs fd hfs hfd
  intro m st
  obtain ⟨c2, hc2⟩ := hpf m st
  rw [hc2]
  rfl

/-- Witness for `C6_same_chunk_surfaced`: rows 0 and 1 of the file
`tid = [5, 5]`, `cid = [1, 1]` both survive and both map to canonical
position 1 inside chunk 0; the run aborts. -/
theorem C6_same_chunk_surfaced_witness :
    (runVDS 2 5 3 [[⟨[5, 5], [1, 1], [1, 1]⟩]]).2.isSome = true :=
  (C6_same_chunk_surfaced 2 5 3 [[⟨[5, 5], [1, 1], [1, 1]⟩]]
    [⟨[5, 5], [1, 1], [1, 1]⟩] ⟨[5, 5], [1, 1], [1, 1]⟩
    (by decide) (by decide) (by decide) (by decide) (by decide)
    0 1 0 (by decide) (by decide) (by decide) (by decide)
    (by decide) (by decide) (by decide)).2

/-! ## Claim C9: within-chunk destination ordering -/

/-- C9: for any chunk, (a) the computed destination list `chunk_ind` is
strictly ascending; (b) when the selected rows' canonical positions are
strictly increasing in physical row order (and in canonical range),
`chunk_ind` equals the selected positions list, so the h5py pairing
(i-th selected row to i-th destination) sends every selected row to its own
computed position; (c) when that precondition fails but the positions are
distinct and in range, the chunk still passes the count check (no error is
raised) while some selected row is paired with a destination different from
its own computed position — the rows are permuted. -/
theorem C9_chunk_ordering (ftr nt np : Nat) (h1 : ftr + nt ≤ U64) (h2 : nt * np ≤ U64)
    (sel : List Bool) (flatid : List Nat) (hlen : flatid.length = sel.length)
    (st en : Nat) :
    List.Pairwise (· < ·)
      (chunkInd (allFlatid ftr nt np) (maskList flatid (chunkSel sel st en))) ∧
    (List.Pairwise (· < ·) (maskList flatid (chunkSel sel st en)) →
      (∀ v ∈ maskList flatid (chunkSel sel st en), v < nt * np) →
      chunkInd (allFlatid ftr nt np) (maskList flatid (chunkSel sel st en)) =
        maskList flatid (chunkSel sel st en) ∧
      ∀ p ∈ (selRows (chunkSel sel st en)).zip
        (chunkInd (allFlatid ftr nt np) (maskList flatid (chunkSel sel st en))),
        p.2 = flatid.getD p.1 0) ∧
    (¬ List.Pairwise (· < ·) (maskList flatid (chunkSel sel st en)) →
      (maskList flatid (chunkSel sel st en)).Nodup →
      (∀ v ∈ maskList flatid (chunkSel sel st en), v < nt * np) →
      selCount (chunkSel sel st en) =
        (chunkInd (allFlatid ftr nt np) (maskList flatid (chunkSel sel st en))).length ∧
      ∃ p ∈ (selRows (chunkSel sel st en)).zip
        (chunkInd (allFlatid ftr nt np) (maskList flatid (chunkSel sel st en))),
        p.2 ≠ flatid.getD p.1 0) := by
  have hAF := allFlatid_eq_range ftr nt np h1 h2
  have hflen : flatid.length = (chunkSel sel st en).length := by
    rw [length_chunkSel]; exact hlen
  have hmap : maskList flatid (chunkSel sel st en) =
      (selRows (chunkSel sel st en)).map (fun r => flatid.getD r 0) :=
    maskList_eq_map _ _ hflen
  refine ⟨chunkInd_sorted _ _, fun hsort hsub => ?_, fun hnsort hnd hsub => ?_⟩
  · have heq : chunkInd (allFlatid ftr nt np) (maskList flatid (chunkSel sel st en)) =
        maskList flatid (chunkSel sel st en) := by
      rw [hAF]
      exact chunkInd_eq_of_sorted _ _ hsort hsub
    refine ⟨heq, ?_⟩
    rw [heq, hmap]
    intro p hp
    exact zip_map_self _ _ p hp
  · have hperm : (chunkInd (allFlatid ftr nt np)
        (maskList flatid (chunkSel sel st en))).Perm
        (maskList flatid (chunkSel sel st en)) := by
      rw [hAF]
      exact chunkInd_perm _ _ hnd hsub
    have hlens := hperm.length_eq
    have hcount : selCount (chunkSel sel st en) =
        (chunkInd (allFlatid ftr nt np) (maskList flatid (chunkSel sel st en))).length := by
      rw [hlens]
      exact (maskList_length _ _ hflen).symm
    refine ⟨hcount, ?_⟩
    have hne : chunkInd (allFlatid ftr nt np) (maskList flatid (chunkSel sel st en)) ≠
        maskList flatid (chunkSel sel st en) := by
      intro he
      apply hnsort
      rw [← he]
      exact chunkInd_sorted _ _
    obtain ⟨k, hk, hkne⟩ := exists_getD_ne _ _ hlens hne
    have hksel : k < (selRows (chunkSel sel st en)).length := by
      rw [selRows, selRowsFrom_length, hcount]
      exact hk
    have hkzip : k < ((selRows (chunkSel sel st en)).zip
        (chunkInd (allFlatid ftr nt np) (maskList flatid (chunkSel sel st en)))).length := by
      rw [List.length_zip]
      exact lt_min hksel hk
    refine ⟨((selRows (chunkSel sel st en)).zip
      (chunkInd (allFlatid ftr nt np) (maskList flatid (chunkSel sel st en))))[k],
      List.getElem_mem hkzip, ?_⟩
    rw [List.getElem_zip]
    show (chunkInd (allFlatid ftr nt np) (maskList flatid (chunkSel sel st en)))[k] ≠
      flatid.getD ((selRows (chunkSel sel st en))[k]) 0
    have hv : (maskList flatid (chunkSel sel st en)).getD k 0 =
        flatid.getD ((selRows (chunkSel sel st en))[k]) 0 := by
      rw [hmap, List.getD_eq_getElem?_getD,
        List.getElem?_eq_getElem (by rw [List.length_map]; exact hksel),
        List.getElem_map]
      rfl
    rw [← hv]
    have hc2 : (chunkInd (allFlatid ftr nt np)
        (maskList flatid (chunkSel sel st en))).getD k 0 =
        (chunkInd (allFlatid ftr nt np) (maskList flatid (chunkSel sel st en)))[k] := by
      rw [List.getD_eq_getElem?_getD, List.getElem?_eq_getElem hk]
      rfl
    rw [← hc2]
    exact hkne

/-- Witness for `C9_chunk_ordering`: a chunk with selected positions `[3, 5]`
(strictly increasing, in range for `trainCount * pulsesPerTrain = 8`) gets
`chunk_ind = [3, 5]` — each row lands at its own position. -/
theorem C9_chunk_ordering_witness :
    chunkInd (allFlatid 0 4 2) (maskList [3, 5] (chunkSel [true, true] 0 32)) =
      maskList [3, 5] (chunkSel [true, true] 0 32) :=
  ((C9_chunk_ordering 0 4 2 (by decide) (by decide) [true, true] [3, 5] (by decide)
    0 32).2.1 (by decide) (by decide)).1

/-! ## Claim C10: metadata assignment shape -/

theorem maskedWrite_isSome (arr : Nat → Nat) (idxs vals : List Nat) :
    (maskedWrite arr idxs vals).isSome = true ↔ idxs.length = vals.length := by
  rw [maskedWrite]
  split <;> simp_all

theorem length_filter_range_div (nt np : Nat) (p : Nat → Bool) :
    ((List.range (nt * np)).filter (fun f => p (f / np))).length =
      np * ((List.range nt).filter p).length := by
  induction nt with
  | zero => simp
  | succ n ih =>
    rw [Nat.succ_mul, List.range_add, List.filter_append, List.length_append, ih,
      List.range_succ, List.filter_append, List.length_append]
    have hblock : ((List.range np).map (fun x => n * np + x)).filter
        (fun f => p (f / np)) =
        ((List.range np).filter ((fun f => p (f / np)) ∘ fun x => n * np + x)).map
          (fun x => n * np + x) := List.filter_map _ _
    have hcongr : ∀ r ∈ List.range np,
        ((fun f => p (f / np)) ∘ fun x => n * np + x) r = p n := by
      intro r hr
      show p ((n * np + r) / np) = p n
      rw [block_div n np r (List.mem_range.mp hr)]
    rw [hblock, List.length_map, List.filter_congr hcongr]
    cases hpn : p n <;> simp [hpn] <;> ring

theorem metaIndices_length (ftr nt np : Nat) (h1 : ftr + nt ≤ U64) (S : List Nat) :
    (metaIndices (allTrains ftr nt np) S).length =
      np * ((List.range nt).filter (fun t => S.contains (ftr + t))).length := by
  rw [metaIndices, length_allTrains]
  have hcongr : ∀ f ∈ List.range (nt * np),
      (S.contains ((allTrains ftr nt np).getD f 0)) =
        ((fun t => S.contains (ftr + t)) (f / np)) := by
    intro f hf
    rw [allTrains_getD ftr nt np f (List.mem_range.mp hf) h1]
  rw [List.filter_congr hcongr]
  exact length_filter_range_div nt np (fun t => S.contains (ftr + t))

theorem filter_range_card_of_subset (ftr nt : Nat) (S : List Nat)
    (hAll : ∀ v ∈ S, ∃ t, t < nt ∧ v = ftr + t) :
    ((List.range nt).filter (fun t => S.contains (ftr + t))).length = S.dedup.length := by
  have hnd : ((List.range nt).filter (fun t => S.contains (ftr + t))).Nodup :=
    List.Nodup.sublist (List.filter_sublist _) (List.nodup_range _)
  rw [← List.card_toFinset S, ← List.toFinset_card_of_nodup hnd]
  have himg : ((List.range nt).filter (fun t => S.contains (ftr + t))).toFinset.image
      (fun t => ftr + t) = S.toFinset := by
    apply Finset.ext
    intro v
    simp only [Finset.mem_image, List.mem_toFinset, List.mem_filter, List.mem_range]
    constructor
    · rintro ⟨t, ⟨htn, hcont⟩, rfl⟩
      simpa using hcont
    · intro hv
      obtain ⟨t, htn, rfl⟩ := hAll v hv
      exact ⟨t, ⟨htn, by simpa using hv⟩, rfl⟩
  rw [← himg, Finset.card_image_of_injective _ (fun a b hab => by omega)]

theorem count_maskList_le (xs : List Nat) (s : List Bool) (v np : Nat)
    (h : ∀ j, j < xs.length → s.getD j false = true → xs.getD j 0 = v →
      (xs.take j).count v < np) :
    (maskList xs s).count v ≤ np := by
  induction xs generalizing s np with
  | nil =>
    cases s with
    | nil => simp [maskList]
    | cons b bs => simp [maskList]
  | cons x xs ih =>
    cases s with
    | nil => simp [maskList]
    | cons b bs =>
      have htail : ∀ j, j < xs.length → bs.getD j false = true → xs.getD j 0 = v →
          (xs.take j).count v < np - (if x = v then 1 else 0) := by
        intro j hj hb hx
        have h2 := h (j + 1) (by simpa using hj)
          (by rw [List.getD_cons_succ]; exact hb)
          (by rw [List.getD_cons_succ]; exact hx)
        rw [List.take_succ_cons] at h2
        by_cases hxv : x = v
        · rw [hxv, List.count_cons_self] at h2
          rw [if_pos hxv]
          omega
        · rw [List.count_cons_of_ne (fun he => hxv he.symm)] at h2
          rw [if_neg hxv]
          omega
      cases b with
      | true =>
        have hml : maskList (x :: xs) (true :: bs) = x :: maskList xs bs := by
          simp [maskList]
        rw [hml]
        by_cases hxv : x = v
        · have h0 := h 0 (by simp) rfl (by rw [List.getD_cons_zero]; exact hxv)
          simp only [List.take_zero, List.count_nil] at h0
          have htail2 := ih bs (np - 1) (by
            intro j hj hb hx
            have h3 := htail j hj hb hx
            rw [if_pos hxv] at h3
            exact h3)
          rw [hxv, List.count_cons_self]
          omega
        · have htail2 := ih bs np (by
            intro j hj hb hx
            have h3 := htail j hj hb hx
            rw [if_neg hxv] at h3
            omega)
          rw [List.count_cons_of_ne (fun he => hxv he.symm)]
          exact htail2
      | false =>
        have hml : maskList (x :: xs) (false :: bs) = maskList xs bs := by
          simp [maskList]
        rw [hml]
        by_cases hxv : x = v
        · have htail2 := ih bs (np - 1) (by
            intro j hj hb hx
            have h3 := htail j hj hb hx
            rw [if_pos hxv] at h3
            exact h3)
          omega
        · exact ih bs np (by
            intro j hj hb hx
            have h3 := htail j hj hb hx
            rw [if_neg hxv] at h3
            omega)

theorem countBefore_lt_countVal (tid : List Nat) (j : Nat) (hj : j < tid.length) :
    countBefore tid j (tid.getD j 0) < countVal tid (tid.getD j 0) := by
  rw [countBefore, countVal]
  set v := tid.getD j 0 with hv
  have hsplit : tid.count v = (tid.take j).count v + (tid.drop j).count v := by
    conv_lhs => rw [← List.take_append_drop j tid]
    rw [List.count_append]
  have hpos : 0 < (tid.drop j).count v := by
    rw [List.count_pos_iff, List.drop_eq_getElem_cons hj]
    have hvj : v = tid[j] := by
      rw [hv, List.getD_eq_getElem?_getD, List.getElem?_eq_getElem hj]
      rfl
    rw [hvj]
    exact List.mem_cons_self _ _
  omega

theorem surviving_rank_lt (np ltrain : Nat) (tid : List Nat) (j : Nat)
    (hj : j < tid.length)
    (hs : (finalSel np ltrain tid).getD j false = true) :
    countBefore tid j (tid.getD j 0) < np := by
  rw [finalSel_getD np ltrain tid j hj] at hs
  by_cases hcv : np < countVal tid (tid.getD j 0)
  · by_cases hrk : np ≤ countBefore tid j (tid.getD j 0)
    · rw [decide_eq_true hcv, decide_eq_true hrk] at hs
      simp at hs
    · omega
  · have := countBefore_lt_countVal tid j hj
    omega

theorem maskList_finalSel_count_le (np ltrain : Nat) (tid : List Nat) (v : Nat) :
    (maskList tid (finalSel np ltrain tid)).count v ≤ np := by
  apply count_maskList_le
  intro j hj hsel hval
  have hr := surviving_rank_lt np ltrain tid j hj hsel
  rw [countBefore, hval] at hr
  exact hr

theorem count_mul_iff (S : List Nat) (np : Nat)
    (hle : ∀ v ∈ S, S.count v ≤ np) :
    (S.length = np * S.dedup.length ↔ ∀ v ∈ S, S.count v = np) := by
  have hsum : ∑ a ∈ S.toFinset, S.count a = S.length := by
    have h := Multiset.toFinset_sum_count_eq (S : Multiset Nat)
    simpa using h
  have hcard : S.toFinset.card = S.dedup.length := List.card_toFinset S
  have hconst : ∑ _a ∈ S.toFinset, np = np * S.dedup.length := by
    rw [Finset.sum_const, smul_eq_mul, hcard, Nat.mul_comm]
  constructor
  · intro heq v hv
    have hiff := Finset.sum_eq_sum_iff_of_le
      (f := fun a => S.count a) (g := fun _ => np)
      (fun i _ => hle i (List.mem_toFinset.mp (by assumption)))
    have hss : ∑ a ∈ S.toFinset, S.count a = ∑ _a ∈ S.toFinset, np := by
      rw [hsum, hconst, heq]
    exact hiff.mp hss v (List.mem_toFinset.mpr hv)
  · intro hall
    rw [← hsum, Finset.sum_congr rfl (fun v hv => hall v (List.mem_toFinset.mp hv)),
      hconst]

/-- C10, counterexample.  With `firstTrainId = 10`, `trainCount = 2`,
`pulsesPerTrain = 2`, the file `tid = [10, 5]` has two surviving rows: train
10, in canonical range, contributes only 1 < 2 surviving rows (partially
populated), and train 5 lies below the canonical range.  The claim says a
partially populated in-range train makes the masked metadata assignment fail
with a shape mismatch; instead the below-range train 5 contributes a value
but no destination, the counts compensate (2 destinations, 2 values), and
the assignment succeeds. -/
theorem C10_meta_counterexample :
    finalSel 2 (10 + 2) [10, 5] = [true, true] ∧
    (maskList [10, 5] (finalSel 2 (10 + 2) [10, 5])).count 10 = 1 ∧
    (1 : Nat) < 2 ∧
    metaIndices (allTrains 10 2 2) (maskList [10, 5] (finalSel 2 (10 + 2) [10, 5])) =
      [0, 1] ∧
    (maskedWrite (fun _ => uint16Max)
      (metaIndices (allTrains 10 2 2) (maskList [10, 5] (finalSel 2 (10 + 2) [10, 5])))
      (maskList [7, 9] (finalSel 2 (10 + 2) [10, 5]))).isSome = true := by
  decide

/-- C10 (amended): the masked metadata assignment of one file is well-formed
iff `pulsesPerTrain` times the number of distinct surviving train ids lying
in the canonical range `[firstTrainId, firstTrainId + trainCount)` equals
the number of surviving rows; when every surviving train id lies in the
canonical range this reduces to: every surviving train is fully populated
(exactly `pulsesPerTrain` surviving rows), so a partially populated train
then forces the shape fault — but a below-range surviving train can mask a
partially populated one (`C10_meta_counterexample`). -/
theorem C10_meta_shape (np ftr nt : Nat) (h1 : ftr + nt ≤ U64)
    (tid cid : List Nat) (arr : Nat → Nat) (hlen : cid.length = tid.length) :
    ((maskedWrite arr
        (metaIndices (allTrains ftr nt np) (maskList tid (finalSel np (ftr + nt) tid)))
        (maskList cid (finalSel np (ftr + nt) tid))).isSome = true ↔
      np * ((List.range nt).filter
        (fun t => (maskList tid (finalSel np (ftr + nt) tid)).contains (ftr + t))).length =
        selCount (finalSel np (ftr + nt) tid)) ∧
    ((∀ v ∈ maskList tid (finalSel np (ftr + nt) tid), ∃ t, t < nt ∧ v = ftr + t) →
      ((maskedWrite arr
          (metaIndices (allTrains ftr nt np) (maskList tid (finalSel np (ftr + nt) tid)))
          (maskList cid (finalSel np (ftr + nt) tid))).isSome = true ↔
        ∀ v ∈ maskList tid (finalSel np (ftr + nt) tid),
          (maskList tid (finalSel np (ftr + nt) tid)).count v = np)) := by
  have hA : (maskedWrite arr
      (metaIndices (allTrains ftr nt np) (maskList tid (finalSel np (ftr + nt) tid)))
      (maskList cid (finalSel np (ftr + nt) tid))).isSome = true ↔
      np * ((List.range nt).filter
        (fun t => (maskList tid (finalSel np (ftr + nt) tid)).contains (ftr + t))).length =
        selCount (finalSel np (ftr + nt) tid) := by
    rw [maskedWrite_isSome, metaIndices_length ftr nt np h1,
      maskList_length cid _ (by rw [length_finalSel]; exact hlen)]
  refine ⟨hA, fun hAll => ?_⟩
  rw [hA, filter_range_card_of_subset ftr nt _ hAll]
  have hSlen : (maskList tid (finalSel np (ftr + nt) tid)).length =
      selCount (finalSel np (ftr + nt) tid) :=
    maskList_length tid _ (length_finalSel np (ftr + nt) tid).symm
  rw [← hSlen]
  have hcm := count_mul_iff (maskList tid (finalSel np (ftr + nt) tid)) np
    (fun v _ => maskList_finalSel_count_le np (ftr + nt) tid v)
  constructor
  · intro h
    exact hcm.mp h.symm
  · intro h
    exact (hcm.mpr h).symm

/-- Witness for `C10_meta_shape`: the file `tid = [10]` (one surviving row,
train 10 in range `[10, 12)`, partially populated with 1 < 2 rows) makes
the masked assignment fail. -/
theorem C10_meta_shape_witness :
    (maskedWrite (fun _ => uint16Max)
      (metaIndices (allTrains 10 2 2) (maskList [10] (finalSel 2 (10 + 2) [10])))
      (maskList [7] (finalSel 2 (10 + 2) [10]))).isSome = false := by
  have h := (C10_meta_shape 2 10 2 (by decide) [10] [7] (fun _ => uint16Max)
    (by decide)).2 (by
      intro v hv
      refine ⟨0, by decide, ?_⟩
      have hv2 : v = 10 := by
        have hm : maskList [10] (finalSel 2 (10 + 2) [10]) = [10] := by decide
        rw [hm] at hv
        simpa using hv
      omega)
  cases ho : (maskedWrite (fun _ => uint16Max)
      (metaIndices (allTrains 10 2 2) (maskList [10] (finalSel 2 (10 + 2) [10])))
      (maskList [7] (finalSel 2 (10 + 2) [10]))).isSome with
  | false => rfl
  | true =>
    have hall := h.mp ho
    have h10 := hall 10 (by decide)
    rw [show (maskList [10] (finalSel 2 (10 + 2) [10])).count 10 = 1 from by decide] at h10
    exact absurd h10 (by decide)

/-! ## Claims C1 and C7: the validator's row filter -/

/-- C1, counterexample.  The claim says a row with `0 < trainId < firstTrainId`
is rejected.  With `firstTrainId = 10` and `trainCount = 10` (so
`ltrain = 20`), the single row with `trainId = 5` satisfies
`0 < 5 < firstTrainId`, yet the validator keeps it: line 101 only tests
`tid > 0` and `tid < ltrain`. -/
theorem C1_range_counterexample :
    0 < 5 ∧ 5 < 10 ∧ (finalSel 2 (10 + 10) [5]).getD 0 false = true := by decide

/-- C1 (amended): the validator rejects rows with `trainId == 0` and rows
with `trainId >= firstTrainId + trainCount`, but does not enforce the lower
canonical bound: any row with `0 < trainId < firstTrainId + trainCount`
passes the range filter (and survives when it is among the first
`npulses` occurrences of its train id). -/
theorem C1_range_filter (np ftrain ntrains : Nat) (tid : List Nat) (j : Nat)
    (hj : j < tid.length) :
    (tid.getD j 0 = 0 → (finalSel np (ftrain + ntrains) tid).getD j false = false) ∧
    (ftrain + ntrains ≤ tid.getD j 0 →
      (finalSel np (ftrain + ntrains) tid).getD j false = false) ∧
    (0 < tid.getD j 0 → tid.getD j 0 < ftrain + ntrains →
      countBefore tid j (tid.getD j 0) < np →
      (finalSel np (ftrain + ntrains) tid).getD j false = true) := by
  rw [finalSel_getD _ _ _ _ hj]
  refine ⟨fun h0 => ?_, fun hge => ?_, fun hpos hlt hrank => ?_⟩
  · rw [h0]
    simp
  · have : decide (tid.getD j 0 < ftrain + ntrains) = false :=
      decide_eq_false (by omega)
    rw [this]
    simp
  · have h1 : decide (0 < tid.getD j 0) = true := decide_eq_true hpos
    have h2 : decide (tid.getD j 0 < ftrain + ntrains) = true := decide_eq_true hlt
    have h3 : decide (np ≤ countBefore tid j (tid.getD j 0)) = false :=
      decide_eq_false (by omega)
    rw [h1, h2, h3]
    simp

/-- Witness for `C1_range_filter` at `npulses = 1`, `firstTrainId = 10`,
`trainCount = 10`, `tid = [0, 25, 5]`: the zero row and the row at train 25
are rejected, the row at train 5 is kept. -/
theorem C1_range_filter_witness :
    (finalSel 1 (10 + 10) [0, 25, 5]).getD 0 false = false ∧
    (finalSel 1 (10 + 10) [0, 25, 5]).getD 1 false = false ∧
    (finalSel 1 (10 + 10) [0, 25, 5]).getD 2 false = true :=
  ⟨(C1_range_filter 1 10 10 [0, 25, 5] 0 (by decide)).1 (by decide),
   (C1_range_filter 1 10 10 [0, 25, 5] 1 (by decide)).2.1 (by decide),
   (C1_range_filter 1 10 10 [0, 25, 5] 2 (by decide)).2.2 (by decide) (by decide) (by decide)⟩

/-- C7: any train id occurring more than `npulses` times in a file's index
keeps only its first `npulses` occurrences (in physical row order); every
later occurrence is rejected, and the first `npulses` occurrences are
exactly as selected by the range filter.  The concrete instance of the
claim: `tid = [0, 5, 5, 5, 6]` with `npulses = 2` (and a canonical range
containing trains 5 and 6, here `ltrain = 7`) keeps exactly rows 1, 2, 4,
i.e. 3 surviving rows. -/
theorem C7_first_wins (np ltrain : Nat) (tid : List Nat) (j : Nat)
    (hj : j < tid.length) (hcount : np < countVal tid (tid.getD j 0)) :
    ((np ≤ countBefore tid j (tid.getD j 0) →
        (finalSel np ltrain tid).getD j false = false) ∧
      (countBefore tid j (tid.getD j 0) < np →
        (finalSel np ltrain tid).getD j false =
          (decide (0 < tid.getD j 0) && decide (tid.getD j 0 < ltrain)))) ∧
    finalSel 2 7 [0, 5, 5, 5, 6] = [false, true, true, false, true] ∧
    selCount (finalSel 2 7 [0, 5, 5, 5, 6]) = 3 := by
  refine ⟨⟨fun hrank => ?_, fun hrank => ?_⟩, by decide, by decide⟩
  · rw [finalSel_getD _ _ _ _ hj]
    have h1 : decide (np < countVal tid (tid.getD j 0)) = true := decide_eq_true hcount
    have h2 : decide (np ≤ countBefore tid j (tid.getD j 0)) = true := decide_eq_true hrank
    rw [h1, h2]
    simp
  · rw [finalSel_getD _ _ _ _ hj]
    have h2 : decide (np ≤ countBefore tid j (tid.getD j 0)) = false :=
      decide_eq_false (by omega)
    rw [h2]
    simp

/-- Witness for `C7_first_wins`: in `[0, 5, 5, 5, 6]` with `npulses = 2`,
row 3 is the third occurrence of train 5 and is rejected. -/
theorem C7_first_wins_witness :
    (finalSel 2 7 [0, 5, 5, 5, 6]).getD 3 false = false :=
  (C7_first_wins 2 7 [0, 5, 5, 5, 6] 3 (by decide) (by decide)).1.1 (by decide)

/-! ## Claim C8: the canonical position formula and its inverse -/

/-- C8: (a) for every canonical frame index `f < trainCount * pulsesPerTrain`,
the canonical arrays read `trainId = firstTrainId + f / pulsesPerTrain`,
`cellSlot = f % pulsesPerTrain` and `all_flatid f = f`; (b) for every row
whose train id is in canonical range (so that the uint64 arithmetic of
line 96 does not wrap), the computed position is
`(trainId - firstTrainId) * pulsesPerTrain + cellId`, and when additionally
`cellId < pulsesPerTrain` the canonical arrays at that position read back
exactly the row's `trainId` and `cellId` — the two sides agree on the same
bijection.  The bounds `firstTrainId + trainCount <= 2^64` and
`frameCount <= 2^64` rule out uint64 overflow of the canonical arrays. -/
theorem C8_position_bijection (ftr nt np : Nat)
    (h1 : ftr + nt ≤ U64) (h2 : nt * np ≤ U64) :
    (∀ f, f < nt * np →
      (allTrains ftr nt np).getD f 0 = ftr + f / np ∧
      (allCells nt np).getD f 0 = f % np ∧
      (allFlatid ftr nt np).getD f 0 = f) ∧
    (∀ (tid cid : List Nat) (i : Nat), i < tid.length → i < cid.length →
      ftr ≤ tid.getD i 0 →
      (tid.getD i 0 - ftr) * np + cid.getD i 0 < nt * np →
      (flatidRow np ftr tid cid).getD i 0 =
        (tid.getD i 0 - ftr) * np + cid.getD i 0 ∧
      (cid.getD i 0 < np →
        (allTrains ftr nt np).getD ((flatidRow np ftr tid cid).getD i 0) 0 =
          tid.getD i 0 ∧
        (allCells nt np).getD ((flatidRow np ftr tid cid).getD i 0) 0 =
          cid.getD i 0)) := by
  constructor
  · intro f hf
    refine ⟨allTrains_getD ftr nt np f hf h1, allCells_getD nt np f hf, ?_⟩
    rw [allFlatid_eq_range ftr nt np h1 h2, getD_range _ _ hf]
  · intro tid cid i hit hic ht hlt
    have hval : (flatidRow np ftr tid cid).getD i 0 =
        (tid.getD i 0 - ftr) * np + cid.getD i 0 := by
      rw [flatidRow, getD_zipWith _ _ _ _ hit hic]
      have hnp : 0 < np := pos_of_lt_mul _ nt np hlt
      have hd : tid.getD i 0 - ftr < nt := by
        have hmul : (tid.getD i 0 - ftr) * np < nt * np :=
          Nat.lt_of_le_of_lt (Nat.le_add_right _ _) hlt
        exact Nat.lt_of_mul_lt_mul_right hmul
      have htU : tid.getD i 0 < U64 := by omega
      exact flatCalc_eq np ftr _ _ ht htU (Nat.lt_of_lt_of_le hlt h2)
    refine ⟨hval, fun hc => ?_⟩
    rw [hval, allTrains_getD ftr nt np _ hlt h1, allCells_getD nt np _ hlt,
      block_div _ _ _ hc, block_mod _ _ _ hc]
    constructor
    · omega
    · rfl

/-- Witness for `C8_position_bijection` with `firstTrainId = 10`,
`trainCount = 3`, `pulsesPerTrain = 2` and the row `(trainId, cellId) =
(11, 1)`: the computed position is 3 and the canonical arrays at index 3
read train 11, cell 1. -/
theorem C8_position_bijection_witness :
    (allTrains 10 3 2).getD 3 0 = 10 + 3 / 2 ∧
    (flatidRow 2 10 [11] [1]).getD 0 0 = (11 - 10) * 2 + 1 ∧
    (allTrains 10 3 2).getD ((flatidRow 2 10 [11] [1]).getD 0 0) 0 = 11 ∧
    (allCells 3 2).getD ((flatidRow 2 10 [11] [1]).getD 0 0) 0 = 1 := by
  have h := C8_position_bijection 10 3 2 (by decide)
    (by norm_num [U64])
  refine ⟨(h.1 3 (by decide)).1, ?_⟩
  have h2 := h.2 [11] [1] 0 (by decide) (by decide) (by decide) (by decide)
  exact ⟨h2.1, (h2.2 (by decide)).1, (h2.2 (by decide)).2⟩

/-! ## Claim C4: the timeline corruption filter -/

/-- C4, counterexample.  Module 0's only file has train ids `[100, 400]`:
its span 300 exceeds `MAX_TRAINS_IN_FILE = 260` and its minimum 100 is
positive.  The claim says the file's span is excluded from the max-span
computation and its minimum still lower-bounds the run start.  The code
disagrees on both points: since the file is the module's last file, line 52
feeds its last sample 400 into `tmax` while line 50 feeds its minimum into
`tmin`, so the module contributes the full span 300 (`ntrains = 304`), and
`ftrain` is never updated from a corrupted file (line 56 is skipped), so the
run start stays at `sys.maxsize`, which is not bounded by 100. -/
theorem C4_timeline_counterexample :
    maxL [100, 400] - minL [100, 400] > MAX_TRAINS_IN_FILE ∧
    minL [100, 400] = 100 ∧ (0 : Int) < 100 ∧
    vdsTimeline ([[[100, 400]]] ++ List.replicate 15 []) = (304, MAXSIZE) ∧
    ¬ ((vdsTimeline ([[[100, 400]]] ++ List.replicate 15 [])).2 ≤ 100) ∧
    (304 : Int) = (maxL [100, 400] - minL [100, 400]) + 4 := by decide

/-- C4 (amended): a file whose span exceeds `MAX_TRAINS_IN_FILE` never
updates `ftrain` (its minimum, when positive, only enters the module-local
`tmin`, so it reaches `ftrain` only if a non-corrupted file follows in the
same module); its last sample enters `tmax` only when it is the module's
last file — in which case the span `tmax - tmin` contributed by the module
can still include the corrupted file's range, so the span is not always
excluded.  The computation is total: a module whose only file is corrupted
(with positive minimum) contributes `max 0 (last sample) - min MAXSIZE
(minimum)` without crashing. -/
theorem C4_corruption_filter (isLast : Bool) (tmin tmax ftr : Int) (tid : List Int)
    (hspan : maxL tid - minL tid > MAX_TRAINS_IN_FILE) :
    (tlFile isLast (tmin, tmax, ftr) tid =
      ((if minL tid > 0 then min tmin (minL tid) else tmin),
       (if isLast then max tmax (lastL tid) else tmax),
       ftr)) ∧
    (∀ nt0 f0 : Int, minL tid > 0 →
      tlModule (nt0, f0) [tid] =
        (max nt0 (max 0 (lastL tid) - min MAXSIZE (minL tid)), f0)) := by
  constructor
  · rw [tlFile]
    rw [if_pos hspan]
  · intro nt0 f0 hmin
    rw [tlModule]
    show (max nt0 ((tlFile (decide (0 + 1 = 1)) (MAXSIZE, 0, f0) tid).2.1 -
      (tlFile (decide (0 + 1 = 1)) (MAXSIZE, 0, f0) tid).1),
      (tlFile (decide (0 + 1 = 1)) (MAXSIZE, 0, f0) tid).2.2) = _
    rw [tlFile, if_pos hspan]
    simp only [decide_eq_true_eq]
    rw [if_pos hmin, if_pos trivial]

/-- Witness for `C4_corruption_filter` at the single corrupted file
`[100, 400]`: the file step leaves `ftrain` untouched and the one-file
module contributes span 300. -/
theorem C4_corruption_filter_witness :
    tlFile true (MAXSIZE, 0, MAXSIZE) [100, 400] = (100, 400, MAXSIZE) ∧
    tlModule (-1, MAXSIZE) [[100, 400]] = (300, MAXSIZE) := by
  constructor
  · rw [(C4_corruption_filter true MAXSIZE 0 MAXSIZE [100, 400] (by decide)).1]
    decide
  · rw [(C4_corruption_filter true MAXSIZE 0 MAXSIZE [100, 400] (by decide)).2
      (-1) MAXSIZE (by decide)]
    decide

end VDS
